import Mathlib

/-!
# Verification of the RTIC application analysis pass (`src/analyze.rs`)

This file shallowly embeds the analysis pass of `rtfm-syntax` in Lean 4 and
proves the behavioural properties claimed by its specification.

The embedding translates the Rust source as directly as possible:

* `syn::Ident` becomes `Ident`, a name plus a `span` number distinguishing
  occurrences; Rust's `Ident` equality compares names only (spans are ignored),
  so every comparison in the embedding uses `.name` equality, while diagnostics
  carry the span.
* `IndexMap` becomes an association list with in-place update / appending
  insert (`insertIM`); `BTreeMap` becomes a key-sorted association list
  (`btreeUpdate`); `BTreeSet<Ident>` becomes an ordered, duplicate-free list of
  names (`setInsertStr`); `HashMap` (used only for existence lookups) becomes
  an association list with an insert that returns the previous binding
  (`hashInsert`); the `Set` of types becomes a duplicate-free list
  (`insertSet`).
* `syn::Error` becomes `Diag` (span and message); `Error::combine` appends the
  combined message list, and the error aggregation loop of `app` first clones
  the head error and then combines every collected error (the head included)
  into it, which the embedding reproduces.
* The application model (`App`, from the crate's `ast` module, an external
  input of this pass) is embedded following the analysis' input contract:
  optional idle task, spawnable (software) and interrupt-driven (hardware)
  task maps, shared/local resource declaration maps, and the enumeration of
  shared-resource access triples `(optional priority, resource, access kind)`
  provided by `App::shared_resource_accesses`.
-/

namespace RticAnalysis

/-- Access kind of a shared-resource access site: exclusive (`&mut-`) or
shared (`&-`) access. -/
inductive Access where
  | exclusive
  | shared
deriving DecidableEq, Repr

/-- `Access::is_shared`. -/
def Access.is_shared : Access → Bool
  | .shared => true
  | .exclusive => false

/-- A source identifier: `syn::Ident`. The `span` number distinguishes
occurrences (access sites); Rust `Ident` equality compares the name only. -/
structure Ident where
  name : String
  span : Nat
deriving DecidableEq, Repr

/-- A shared resource declaration: its semantic type (opaque, modelled as a
string) and the `lock_free` property flag. -/
structure SharedResource where
  ty : String
  lock_free : Bool
deriving DecidableEq, Repr

/-- A local resource declaration: its semantic type. -/
structure LocalResource where
  ty : String
deriving DecidableEq, Repr

/-- Arguments of the idle task: shared-resource references (with access kind)
and local-resource references. -/
structure IdleArgs where
  shared_resources : List (Ident × Access)
  local_resources : List Ident
deriving DecidableEq, Repr

/-- The idle (background) task. -/
structure Idle where
  args : IdleArgs
deriving DecidableEq, Repr

/-- Arguments of a software (spawnable) task. -/
structure SoftwareTaskArgs where
  priority : Nat
  capacity : Nat
  shared_resources : List (Ident × Access)
  local_resources : List Ident
deriving DecidableEq, Repr

/-- A software (spawnable) task: arguments plus the message input types. -/
structure SoftwareTask where
  args : SoftwareTaskArgs
  inputs : List String
deriving DecidableEq, Repr

/-- Arguments of a hardware (interrupt-driven) task. -/
structure HardwareTaskArgs where
  priority : Nat
  shared_resources : List (Ident × Access)
  local_resources : List Ident
deriving DecidableEq, Repr

/-- A hardware (interrupt-driven) task. -/
structure HardwareTask where
  args : HardwareTaskArgs
deriving DecidableEq, Repr

/-- The application model handed to the analysis: optional idle task, the
software and hardware task maps, the shared and local resource declaration
maps, and the enumeration of every static shared-resource access site as a
`(optional fixed priority, resource identifier, access kind)` triple
(`App::shared_resource_accesses`). -/
structure App where
  idle : Option Idle
  software_tasks : List (String × SoftwareTask)
  hardware_tasks : List (String × HardwareTask)
  shared_resources : List (Ident × SharedResource)
  local_resources : List (Ident × LocalResource)
  shared_resource_accesses : List (Option Nat × Ident × Access)
deriving DecidableEq, Repr

/-- Resource ownership (`enum Ownership`). -/
inductive Ownership where
  /-- Owned by a single task running at the payload priority. -/
  | Owned (priority : Nat)
  /-- Co-owned by two or more tasks, all at the payload priority. -/
  | CoOwned (priority : Nat)
  /-- Contended by tasks at different priorities; the payload is the priority
  ceiling. -/
  | Contended (ceiling : Nat)
deriving DecidableEq, Repr

/-- `Ownership::needs_lock`: whether the resource needs a lock at the given
priority level. -/
def Ownership.needs_lock : Ownership → Nat → Bool
  | .Owned _, _ => false
  | .CoOwned _, _ => false
  | .Contended ceiling, priority => decide (priority < ceiling)

/-- `Ownership::is_owned`: whether the resource is exclusively owned. -/
def Ownership.is_owned : Ownership → Bool
  | .Owned _ => true
  | _ => false

/-- Resource location (`enum Location`); the only variant marks a live,
owned resource. -/
inductive Location where
  | Owned
deriving DecidableEq, Repr

/-- A message channel (`struct Channel`): capacity and the ordered set of
tasks spawnable on it. -/
structure Channel where
  capacity : Nat
  tasks : List String
deriving DecidableEq, Repr

/-- `Channel::default()`. -/
def Channel.default : Channel := ⟨0, []⟩

/-- A diagnostic (`syn::Error::new(span, message)`). -/
structure Diag where
  span : Nat
  msg : String
deriving DecidableEq, Repr

/-! ## Container operations

The association-list counterparts of the container operations the Rust code
uses. Keys of `IndexMap`s are `Ident`s compared by name. -/

/-- `IndexMap::insert`: update the value in place if an equal key is present
(keeping the original key and position), otherwise append the new binding. -/
def insertIM {α : Type} (k : Ident) (v : α) : List (Ident × α) → List (Ident × α)
  | [] => [(k, v)]
  | (k', v') :: rest =>
    if k'.name = k.name then (k', v) :: rest else (k', v') :: insertIM k v rest

/-- `IndexMap::get` by resource name. -/
def getIM {α : Type} (m : List (Ident × α)) (n : String) : Option α :=
  (m.find? (fun p => p.1.name = n)).map (fun p => p.2)

/-- `HashMap::insert`, returning the previous binding for the key (if any)
together with the updated map. -/
def hashInsert {α : Type} (k : String) (v : α) :
    List (String × α) → Option α × List (String × α)
  | [] => (none, [(k, v)])
  | (k', v') :: rest =>
    if k' = k then (some v', (k', v) :: rest)
    else
      let r := hashInsert k v rest
      (r.1, (k', v') :: r.2)

/-- `BTreeMap::entry(k).or_default()` followed by an update of the entry:
insert into a key-sorted association list, applying `f` to the existing
channel or to the default one. -/
def btreeUpdate (k : Nat) (f : Channel → Channel) :
    List (Nat × Channel) → List (Nat × Channel)
  | [] => [(k, f Channel.default)]
  | (k', ch) :: rest =>
    if k < k' then (k, f Channel.default) :: (k', ch) :: rest
    else if k = k' then (k', f ch) :: rest
    else (k', ch) :: btreeUpdate k f rest

/-- Lookup in the channels map. -/
def lookupBT (m : List (Nat × Channel)) (k : Nat) : Option Channel :=
  (m.find? (fun p => p.1 = k)).map (fun p => p.2)

/-- Lexicographic (by character) strict order on strings: the order `Ord` on
`syn::Ident` compares identifier strings by. -/
def strLt (a b : String) : Bool :=
  go a.data b.data
where
  go : List Char → List Char → Bool
    | [], [] => false
    | [], _ :: _ => true
    | _ :: _, [] => false
    | c :: cs, d :: ds =>
      if c.toNat < d.toNat then true
      else if d.toNat < c.toNat then false
      else go cs ds

/-- `BTreeSet<Ident>::insert` on task names: ordered insert, no duplicates. -/
def setInsertStr (x : String) : List String → List String
  | [] => [x]
  | y :: rest =>
    if strLt x y then x :: y :: rest
    else if x = y then y :: rest
    else y :: setInsertStr x rest

/-- `Set::insert` (a hash set of types; only membership is ever observed):
append if the element is not yet present. -/
def insertSet (x : String) (s : List String) : List String :=
  if x ∈ s then s else s ++ [x]

/-! ## The task/resource extractor -/

/-- One entry of `task_resources_list`: the tuple
`(TaskName, shared resource refs, local resource refs, Priority)`. -/
structure TaskDesc where
  name : String
  shared : List Ident
  locals : List Ident
  priority : Nat
deriving DecidableEq, Repr

/-- `task_resources_list`: the idle task (named "idle", priority 0), then the
software tasks, then the hardware tasks, each reduced to its name, shared and
local resource references and priority. -/
def task_resources_list (a : App) : List TaskDesc :=
  (a.idle.toList.map (fun ht =>
    ⟨"idle", ht.args.shared_resources.map (fun p => p.1), ht.args.local_resources, 0⟩))
  ++ a.software_tasks.map (fun p =>
    ⟨p.1, p.2.args.shared_resources.map (fun q => q.1), p.2.args.local_resources,
      p.2.args.priority⟩)
  ++ a.hardware_tasks.map (fun p =>
    ⟨p.1, p.2.args.shared_resources.map (fun q => q.1), p.2.args.local_resources,
      p.2.args.priority⟩)

/-- The `tasks` field of the analysis: all task names, in extraction order. -/
def tasksOf (a : App) : List String := (task_resources_list a).map (fun t => t.name)

/-! ## The lock-free validator -/

/-- The declared lock-free shared resources (`lock_free`). -/
def lockFreeList (a : App) : List Ident :=
  (a.shared_resources.filter (fun p => p.2.lock_free)).map (fun p => p.1)

/-- State of the lock-free scan: `lf_hash` (resource name to the most recently
seen `(task, ident, priority)`) and `lf_res_with_error` (flagged sites). -/
structure LFState where
  lf_hash : List (String × (String × Ident × Nat))
  errs : List Ident
deriving Repr

/-- Loop body of the lock-free scan once the resource names matched: record
the access in `lf_hash`; on a repeated access flag the previous and current
sites when the priorities differ, and flag them (again) when the resource
already has any flagged site. -/
def lfBody (task : String) (priority : Nat) (r : Ident) (st : LFState) : LFState :=
  let ins := hashInsert r.name (task, r, priority) st.lf_hash
  match ins.1 with
  | none => ⟨ins.2, st.errs⟩
  | some prev =>
    let errs1 := if priority ≠ prev.2.2 then st.errs ++ [prev.2.1, r] else st.errs
    let errs2 :=
      if errs1.any (fun e => e.name = r.name) then errs1 ++ [prev.2.1, r] else errs1
    ⟨ins.2, errs2⟩

/-- Body of the innermost lock-free loop: one candidate resource reference `r`
of task `task` at `priority`, matched against the lock-free resource
`lf_res`. -/
def lfStep (lf_res : Ident) (task : String) (priority : Nat) (r : Ident)
    (st : LFState) : LFState :=
  if lf_res.name = r.name then lfBody task priority r st else st

/-- The triple-nested lock-free scan loop, producing the final scan state. -/
def lfScan (lock_free : List Ident) (trl : List TaskDesc) : LFState :=
  lock_free.foldl (fun st lf_res =>
    trl.foldl (fun st t =>
      t.shared.foldl (fun st r => lfStep lf_res t.name t.priority r st) st) st)
    ⟨[], []⟩

/-- `lf_res_with_error`: the flagged access sites of the lock-free scan. -/
def lfFlagged (a : App) : List Ident :=
  (lfScan (lockFreeList a) (task_resources_list a)).errs

/-- The per-resource summary diagnostics: one for each declared lock-free
resource that has a flagged site. -/
def lfSummaryDiags (a : App) : List Diag :=
  ((lockFreeList a).filter
      (fun r => (lfFlagged a).any (fun e => e.name = r.name))).map
    (fun r =>
      ⟨r.span,
        "Lock free shared resource " ++ r.name ++
          " is used by tasks at different priorities"⟩)

/-- The per-site diagnostics: one for every flagged access site. -/
def lfSiteDiags (a : App) : List Diag :=
  (lfFlagged a).map (fun r =>
    ⟨r.span,
      "Shared resource " ++ r.name ++
        " is declared lock free but used by tasks at different priorities"⟩)

/-! ## The local-resource exclusivity validator -/

/-- State of the local-resource scan: `lr_hash` (resource name to the most
recently seen `(task, ident)`) and `lr_with_error` (flagged sites). -/
structure LRState where
  lr_hash : List (String × (String × Ident))
  errs : List Ident
deriving Repr

/-- Loop body of the local-resource scan once the resource names matched:
record the access in `lr_hash`; a repeated access flags both the previously
recorded site and the current one. -/
def lrBody (task : String) (r : Ident) (st : LRState) : LRState :=
  let ins := hashInsert r.name (task, r) st.lr_hash
  match ins.1 with
  | none => ⟨ins.2, st.errs⟩
  | some prev => ⟨ins.2, st.errs ++ [prev.2, r]⟩

/-- Body of the innermost local-resource loop: one candidate reference `r` of
task `task`, matched against the declared local resource `lr`. -/
def lrStep (lr : Ident) (task : String) (r : Ident) (st : LRState) : LRState :=
  if lr.name = r.name then lrBody task r st else st

/-- The triple-nested local-resource scan loop. -/
def lrScan (locals : List Ident) (trl : List TaskDesc) : LRState :=
  locals.foldl (fun st lr =>
    trl.foldl (fun st t =>
      t.locals.foldl (fun st r => lrStep lr t.name r st) st) st)
    ⟨[], []⟩

/-- `lr_with_error`: the flagged access sites of the local-resource scan. -/
def lrFlagged (a : App) : List Ident :=
  (lrScan (a.local_resources.map (fun p => p.1)) (task_resources_list a)).errs

/-- The local-resource diagnostics: one per flagged access site. -/
def lrDiags (a : App) : List Diag :=
  (lrFlagged a).map (fun r =>
    ⟨r.span,
      "Local resource " ++ r.name ++ " is used by or collides with multiple tasks"⟩)

/-- The `error` vector of `app`: lock-free summary diagnostics, then lock-free
per-site diagnostics, then local-resource diagnostics. -/
def errorList (a : App) : List Diag :=
  lfSummaryDiags a ++ lfSiteDiags a ++ lrDiags a

/-! ## Ownership classification and resource locations -/

/-- The update of an existing ownership by one further access at `priority`,
the `match` of lines 192-212 of `analyze.rs`: an access at a priority
different from the current ceiling makes the resource contended at the
maximum of the two, an equal-priority access turns `Owned` into `CoOwned`
and leaves the other states unchanged. -/
def ownUpdate (priority : Nat) : Ownership → Ownership
  | .Owned ceiling =>
    if priority ≠ ceiling then .Contended (max ceiling priority) else .CoOwned ceiling
  | .CoOwned ceiling =>
    if priority ≠ ceiling then .Contended (max ceiling priority) else .CoOwned ceiling
  | .Contended ceiling =>
    if priority ≠ ceiling then .Contended (max ceiling priority) else .Contended ceiling

/-- The priority/ceiling payload of an ownership. -/
def ceilingOf : Ownership → Nat
  | .Owned p => p
  | .CoOwned p => p
  | .Contended c => c

/-- One step of the location pass: every access triple registers its resource
as live. -/
def locsStep (m : List (Ident × Location)) (t : Option Nat × Ident × Access) :
    List (Ident × Location) :=
  insertIM t.2.1 Location.Owned m

/-- One step of the ownership pass: a triple carrying a priority either
updates the resource's existing ownership via `ownUpdate` or records the
first access as `Owned`; a priority-less triple changes nothing. -/
def ownsStep (m : List (Ident × Ownership)) (t : Option Nat × Ident × Access) :
    List (Ident × Ownership) :=
  match t.1 with
  | none => m
  | some priority =>
    match getIM m t.2.1.name with
    | some ownership => insertIM t.2.1 (ownUpdate priority ownership) m
    | none => insertIM t.2.1 (.Owned priority) m

/-- One step of the `Sync`-types pass: when an access with a priority turns
the resource contended (its priority differs from the current ceiling) and
the access is a shared one, the resource's type is registered. -/
def syncStep (a : App) (owns : List (Ident × Ownership)) (s : List String)
    (t : Option Nat × Ident × Access) : List String :=
  match t.1 with
  | none => s
  | some priority =>
    match getIM owns t.2.1.name with
    | some ownership =>
      if priority ≠ ceilingOf ownership ∧ t.2.2.is_shared then
        insertSet ((getIM a.shared_resources t.2.1.name).getD ⟨"", false⟩).ty s
      else s
    | none => s

/-- The combined state of the single loop over `shared_resource_accesses`:
shared-resource locations, ownerships, and the `Sync` type set. -/
structure OwnState where
  locs : List (Ident × Location)
  ownerships : List (Ident × Ownership)
  sync_types : List String
deriving Repr

/-- One iteration of the loop over `shared_resource_accesses`. -/
def sharedAccessStep (a : App) (st : OwnState) (t : Option Nat × Ident × Access) :
    OwnState :=
  ⟨locsStep st.locs t, ownsStep st.ownerships t, syncStep a st.ownerships st.sync_types t⟩

/-- The whole loop over `shared_resource_accesses`. -/
def sharedPass (a : App) : OwnState :=
  a.shared_resource_accesses.foldl (sharedAccessStep a) ⟨[], [], []⟩

/-- `local_resource_locations`: every local resource referenced by some task
descriptor is registered as live. -/
def localLocations (a : App) : List (Ident × Location) :=
  (task_resources_list a).foldl
    (fun m t => t.locals.foldl (fun m l => insertIM l Location.Owned m) m) []

/-! ## Send types and channels -/

/-- The `Send` types contributed by shared resources: every shared resource
whose recorded ownership exists and differs from `Owned { priority: 0 }`. -/
def sendShared (a : App) (owns : List (Ident × Ownership)) (s0 : List String) :
    List String :=
  a.shared_resources.foldl
    (fun s p =>
      if ((getIM owns p.1.name).map (fun o => decide (o ≠ Ownership.Owned 0))).getD false then
        insertSet p.2.ty s
      else s)
    s0

/-- The `Send` types contributed by local resources: every local resource,
except those appearing in the idle task's local-resource list when an idle
task exists. -/
def sendLocal (a : App) (s0 : List String) : List String :=
  a.local_resources.foldl
    (fun s p =>
      match a.idle with
      | some idle =>
        if ¬ idle.args.local_resources.any (fun l => l.name = p.1.name) then
          insertSet p.2.ty s
        else s
      | none => insertSet p.2.ty s)
    s0

/-- The loop over software tasks building the channels and inserting every
message input type into the `Send` set. -/
def channelsPass (a : App) (s0 : List String) :
    List (Nat × Channel) × List String :=
  a.software_tasks.foldl
    (fun st p =>
      (btreeUpdate p.2.args.priority
          (fun ch => ⟨ch.capacity, setInsertStr p.1 ch.tasks⟩) st.1,
        p.2.inputs.foldl (fun s i => insertSet i s) st.2))
    ([], s0)

/-- The declared capacity of the software task of the given name. -/
def swCapacity (a : App) (n : String) : Nat :=
  ((a.software_tasks.find? (fun p => p.1 = n)).map (fun p => p.2.args.capacity)).getD 0

/-- The capacity-computation loop: each channel's capacity becomes the sum of
the declared capacities of its tasks. The source sums `u8` values into
`Channel.capacity: u8`, so the sum is reduced modulo `2^8` (each intermediate
wrapping addition agrees with one final reduction). -/
def computeCapacities (a : App) (chs : List (Nat × Channel)) :
    List (Nat × Channel) :=
  chs.map (fun p => (p.1, ⟨(p.2.tasks.map (swCapacity a)).sum % 256, p.2.tasks⟩))

/-! ## The analysis result and the whole pass -/

/-- The result of analyzing an application (`struct Analysis`). -/
structure Analysis where
  channels : List (Nat × Channel)
  shared_resource_locations : List (Ident × Location)
  local_resource_locations : List (Ident × Location)
  tasks : List String
  ownerships : List (Ident × Ownership)
  send_types : List String
  sync_types : List String
deriving DecidableEq, Repr

/-- The successful-path analysis result (everything of `app` after the error
check). -/
def analysisOf (a : App) : Analysis :=
  let own := sharedPass a
  let send1 := sendShared a own.ownerships []
  let send2 := sendLocal a send1
  let chsend := channelsPass a send2
  { channels := computeCapacities a chsend.1
    shared_resource_locations := own.locs
    local_resource_locations := localLocations a
    tasks := tasksOf a
    ownerships := own.ownerships
    send_types := chsend.2
    sync_types := own.sync_types }

/-- The analysis pass `app`: run both validators over the whole application;
if any diagnostic was produced, return the aggregate error (the head
diagnostic combined with every collected diagnostic, the head included);
otherwise produce the analysis. -/
def appAnalyze (a : App) : Except (List Diag) Analysis :=
  match errorList a with
  | [] => .ok (analysisOf a)
  | e :: rest => .error (e :: (e :: rest))

/-! ## Derived definitions used in the statements

Per-resource views of the scans: the ownership fold, the occurrence lists of a
resource in the task descriptors, and the expected flagged suffix of the
lock-free scan. -/

/-- Folding further accesses (by priority) into an existing ownership. -/
def ownFoldFrom (o : Ownership) (ps : List Nat) : Ownership :=
  ps.foldl (fun o q => ownUpdate q o) o

/-- One step of the per-resource fold on an optional ownership: the first
prioritized access creates `Owned`, later ones go through `ownUpdate`. -/
def ownFoldStep (o : Option Ownership) (q : Nat) : Option Ownership :=
  match o with
  | none => some (.Owned q)
  | some ow => some (ownUpdate q ow)

/-- The per-resource fold on an optional ownership. -/
def ownFoldOpt (o : Option Ownership) (ps : List Nat) : Option Ownership :=
  ps.foldl ownFoldStep o

/-- The priorities of the prioritized access triples of resource `n`, in
enumeration order (triples without a priority are skipped). -/
def prioritizedIn (l : List (Option Nat × Ident × Access)) (n : String) : List Nat :=
  l.filterMap (fun t => if t.2.1.name = n then t.1 else none)

/-- The priorities of the prioritized access triples of resource `n` in the
application's access enumeration. -/
def prioritizedAccesses (a : App) (n : String) : List Nat :=
  prioritizedIn a.shared_resource_accesses n

/-- The suffix of an occurrence list from the first adjacent pair of accesses
at different priorities on; empty when all accesses are at one priority. The
lock-free scan flags exactly the sites of this suffix. -/
def lfSpecSet : List (Ident × Nat) → List (Ident × Nat)
  | [] => []
  | [_] => []
  | x :: y :: rest => if x.2 ≠ y.2 then x :: y :: rest else lfSpecSet (y :: rest)

/-- Plain `HashMap` lookup in an association list. -/
def lookupH {α : Type} (m : List (String × α)) (k : String) : Option α :=
  (m.find? (fun p => p.1 = k)).map (fun p => p.2)

/-- All `(task name, local resource reference)` pairs of the task list, in
scan order. -/
def allLocalPairs (trl : List TaskDesc) : List (String × Ident) :=
  (trl.map (fun t => t.locals.map (fun r => (t.name, r)))).flatten

/-- All `(task name, priority, shared resource reference)` triples of the
task list, in scan order. -/
def allSharedPairs (trl : List TaskDesc) : List (String × Nat × Ident) :=
  (trl.map (fun t => t.shared.map (fun r => (t.name, t.priority, r)))).flatten

/-- The local-resource access sites of resource `n`, with the accessing
task's name. -/
def localOccsT (trl : List TaskDesc) (n : String) : List (String × Ident) :=
  (allLocalPairs trl).filter (fun p => n = p.2.name)

/-- The shared-resource access sites of resource `n`, with the accessing
task's name and priority. -/
def sharedOccsT (trl : List TaskDesc) (n : String) : List (String × Nat × Ident) :=
  (allSharedPairs trl).filter (fun p => n = p.2.2.name)

/-- The local-resource access sites of resource `n` in the task descriptor
list, in scan order. -/
def localOccs (trl : List TaskDesc) (n : String) : List Ident :=
  (localOccsT trl n).map (fun p => p.2)

/-- The shared-resource access sites of resource `n` in the task descriptor
list, in scan order, each with the accessing task's priority. -/
def sharedOccs (trl : List TaskDesc) (n : String) : List (Ident × Nat) :=
  (sharedOccsT trl n).map (fun p => (p.2.2, p.2.1))

/-- The flagged sites produced by the local-resource scan on one resource
whose (chronological) access sites are `x` then `l`: every consecutive pair,
flattened. -/
def lrChain (x : Ident) : List Ident → List Ident
  | [] => []
  | y :: rest => x :: y :: lrChain y rest

/-- The flagged sites of the local-resource scan on one resource with the
given access site list. -/
def lrFlagOf : List Ident → List Ident
  | [] => []
  | x :: rest => lrChain x rest

/-- The flagged sites produced by the lock-free scan on one resource in the
"already conflicting" phase: previously recorded site `x` at priority `px`,
remaining accesses `l`; every further access appends the recorded site and
itself (twice when its priority also differs from the recorded one, since
both flagging rules fire). -/
def lfChainBad (x : Ident) (px : Nat) : List (Ident × Nat) → List Ident
  | [] => []
  | y :: rest =>
    if y.2 ≠ px then x :: y.1 :: x :: y.1 :: lfChainBad y.1 y.2 rest
    else x :: y.1 :: lfChainBad y.1 y.2 rest

/-- The flagged sites of the lock-free scan on one resource in the
"no conflict yet" phase: previously recorded site `x` at priority `px`,
remaining accesses `l`. On the first access at a priority other than `px`
both sites are flagged twice and the scan enters the conflicting phase. -/
def lfChainGood (x : Ident) (px : Nat) : List (Ident × Nat) → List Ident
  | [] => []
  | y :: rest =>
    if y.2 ≠ px then x :: y.1 :: x :: y.1 :: lfChainBad y.1 y.2 rest
    else lfChainGood y.1 y.2 rest

/-- The flagged sites of the lock-free scan on one resource with the given
access site list. -/
def lfFlagOf : List (Ident × Nat) → List Ident
  | [] => []
  | x :: rest => lfChainGood x.1 x.2 rest

/-- One task name folded into the channel being built for its dispatch
priority (the `entry(...).or_default()` update, viewed on an optional
channel). -/
def chanStepOpt (c : Option Channel) (nm : String) : Option Channel :=
  some ⟨(c.getD Channel.default).capacity, setInsertStr nm (c.getD Channel.default).tasks⟩

/-- The task set built by inserting the given names in order. -/
def tasksSetOf (names : List String) : List String :=
  names.foldl (fun s nm => setInsertStr nm s) []

/-! ## Concrete applications used as witnesses -/

/-- A shared resource `x` accessed at priorities 3 and 5. -/
def appC1 : App :=
  { idle := none
    software_tasks := []
    hardware_tasks := []
    shared_resources := [(⟨"x", 0⟩, ⟨"X", false⟩)]
    local_resources := []
    shared_resource_accesses :=
      [(some 3, ⟨"x", 1⟩, .exclusive), (some 5, ⟨"x", 2⟩, .shared)] }

/-- A lock-free shared resource `y` used by tasks at priorities 3 and 5. -/
def appLF : App :=
  { idle := none
    software_tasks := []
    hardware_tasks :=
      [("h1", ⟨⟨3, [(⟨"y", 10⟩, .exclusive)], []⟩⟩),
       ("h2", ⟨⟨5, [(⟨"y", 11⟩, .exclusive)], []⟩⟩)]
    shared_resources := [(⟨"y", 9⟩, ⟨"Y", true⟩)]
    local_resources := []
    shared_resource_accesses :=
      [(some 3, ⟨"y", 10⟩, .exclusive), (some 5, ⟨"y", 11⟩, .exclusive)] }

/-- A local resource `l` referenced from the idle task and from a software
task. -/
def appLR : App :=
  { idle := some ⟨⟨[], [⟨"l", 20⟩]⟩⟩
    software_tasks := [("t", ⟨⟨1, 1, [], [⟨"l", 21⟩]⟩, []⟩)]
    hardware_tasks := []
    shared_resources := []
    local_resources := [(⟨"l", 19⟩, ⟨"L"⟩)]
    shared_resource_accesses := [] }

/-- A well-formed application that analyzes successfully: an idle task owning
local resource `li`, two software tasks at dispatch priority 2 with capacities
4 and 6, a software task at priority 1, a shared resource `x` accessed at
priorities 1 and 2, a dead shared resource `d`, and a local resource `lt` of
task `t1`. -/
def appOK : App :=
  { idle := some ⟨⟨[], [⟨"li", 30⟩]⟩⟩
    software_tasks :=
      [("t1", ⟨⟨2, 4, [(⟨"x", 31⟩, .exclusive)], [⟨"lt", 32⟩]⟩, ["M1"]⟩),
       ("t2", ⟨⟨2, 6, [], []⟩, ["M2"]⟩),
       ("t3", ⟨⟨1, 1, [(⟨"x", 33⟩, .shared)], []⟩, []⟩)]
    hardware_tasks := []
    shared_resources := [(⟨"x", 40⟩, ⟨"X", false⟩), (⟨"d", 41⟩, ⟨"D", false⟩)]
    local_resources := [(⟨"li", 42⟩, ⟨"LI"⟩), (⟨"lt", 43⟩, ⟨"LT"⟩)]
    shared_resource_accesses :=
      [(some 2, ⟨"x", 31⟩, .exclusive), (some 1, ⟨"x", 33⟩, .shared)] }

/-- A well-formed application whose two software tasks at dispatch priority 2
declare queue capacities 200 and 100, so their `u8` capacity sum wraps:
200 + 100 = 300 ≡ 44 (mod 2^8). -/
def appWrap : App :=
  { idle := none
    software_tasks :=
      [("u1", ⟨⟨2, 200, [], []⟩, []⟩), ("u2", ⟨⟨2, 100, [], []⟩, []⟩)]
    hardware_tasks := []
    shared_resources := []
    local_resources := []
    shared_resource_accesses := [] }

/-! ## Container lemmas -/

theorem getIM_cons {α : Type} (k : Ident) (v : α) (m : List (Ident × α)) (n : String) :
    getIM ((k, v) :: m) n = if k.name = n then some v else getIM m n := by
  by_cases h : k.name = n <;> simp [getIM, List.find?_cons, h]

theorem getIM_insertIM {α : Type} (k : Ident) (v : α) (m : List (Ident × α)) (n : String) :
    getIM (insertIM k v m) n = if k.name = n then some v else getIM m n := by
  induction m with
  | nil => simp [insertIM, getIM_cons, getIM]
  | cons p rest ih =>
    obtain ⟨k', v'⟩ := p
    rw [insertIM]
    by_cases hk : k'.name = k.name
    · rw [if_pos hk, getIM_cons, getIM_cons, hk]
      by_cases hn : k.name = n
      · rw [if_pos hn, if_pos hn]
      · rw [if_neg hn, if_neg hn, if_neg hn]
    · rw [if_neg hk, getIM_cons, getIM_cons, ih]
      by_cases hn : k'.name = n
      · have hkn : ¬ k.name = n := fun h => hk (by rw [hn, h])
        rw [if_pos hn, if_neg hkn, if_pos hn]
      · rw [if_neg hn, if_neg hn]

theorem mem_insertSet (x y : String) (s : List String) :
    x ∈ insertSet y s ↔ x ∈ s ∨ x = y := by
  by_cases h : y ∈ s
  · simp only [insertSet, if_pos h]
    constructor
    · exact Or.inl
    · rintro (hx | rfl) <;> assumption
  · simp [insertSet, if_neg h]

theorem mem_setInsertStr (x y : String) (s : List String) :
    x ∈ setInsertStr y s ↔ x = y ∨ x ∈ s := by
  induction s with
  | nil => simp [setInsertStr]
  | cons z rest ih =>
    by_cases h1 : strLt y z
    · simp [setInsertStr, h1]
    · by_cases h2 : y = z
      · subst h2
        simp only [setInsertStr, if_neg h1, if_pos rfl]
        constructor
        · exact Or.inr
        · rintro (rfl | hx) <;> simp_all
      · simp only [setInsertStr, if_neg h1, if_neg h2, List.mem_cons, ih]
        tauto

theorem setInsertStr_perm (y : String) (s : List String) (h : y ∉ s) :
    List.Perm (setInsertStr y s) (y :: s) := by
  induction s with
  | nil => simp [setInsertStr]
  | cons z rest ih =>
    by_cases h1 : strLt y z
    · simp [setInsertStr, h1]
    · by_cases h2 : y = z
      · exact absurd (h2 ▸ List.mem_cons_self z rest) h
      · simp only [setInsertStr, if_neg h1, if_neg h2]
        have hyr : y ∉ rest := fun hy => h (List.mem_cons_of_mem z hy)
        exact ((ih hyr).cons z).trans (List.Perm.swap y z rest)

/-! ## The ownership fold, resource by resource

`ownsStep` processes the access triples one by one through an `IndexMap`; per
resource this is a fold of `ownUpdate` over the priorities of its prioritized
access triples, starting from `Owned` at the first one. -/

theorem ceilingOf_ownUpdate (q : Nat) (o : Ownership) :
    ceilingOf (ownUpdate q o) = max (ceilingOf o) q := by
  cases o <;>
    · rename_i c
      by_cases h : q = c <;> simp [ownUpdate, ceilingOf, h]

theorem ownUpdate_contended (q c : Nat) :
    ownUpdate q (.Contended c) = .Contended (max c q) := by
  by_cases h : q = c <;> simp [ownUpdate, h]

theorem ownFoldFrom_contended (c : Nat) (ps : List Nat) :
    ownFoldFrom (.Contended c) ps = .Contended (ps.foldl max c) := by
  induction ps generalizing c with
  | nil => rfl
  | cons q rest ih =>
    show ownFoldFrom (ownUpdate q (.Contended c)) rest = _
    rw [ownUpdate_contended, ih]
    rfl

theorem ownFoldFrom_coowned_char (p : Nat) (ps : List Nat) :
    ownFoldFrom (.CoOwned p) ps =
      if ∀ q ∈ ps, q = p then .CoOwned p else .Contended (ps.foldl max p) := by
  induction ps with
  | nil => rfl
  | cons q rest ih =>
    by_cases hq : q = p
    · subst hq
      have h1 : ownUpdate q (.CoOwned q) = .CoOwned q := by simp [ownUpdate]
      have h2 : ownFoldFrom (.CoOwned q) (q :: rest) = ownFoldFrom (.CoOwned q) rest := by
        show ownFoldFrom (ownUpdate q (.CoOwned q)) rest = _
        rw [h1]
      rw [h2, ih]
      by_cases hall : ∀ r ∈ rest, r = q
      · rw [if_pos hall, if_pos (by simpa using hall)]
      · rw [if_neg hall, if_neg (by simpa using hall)]
        simp
    · have h1 : ownUpdate q (.CoOwned p) = .Contended (max p q) := by simp [ownUpdate, hq]
      have h2 : ownFoldFrom (.CoOwned p) (q :: rest) = ownFoldFrom (.Contended (max p q)) rest := by
        show ownFoldFrom (ownUpdate q (.CoOwned p)) rest = _
        rw [h1]
      rw [h2, ownFoldFrom_contended]
      rw [if_neg (by push_neg; exact ⟨q, List.mem_cons_self q rest, hq⟩)]
      rfl

theorem ownFoldFrom_owned_char (p : Nat) (ps : List Nat) :
    ownFoldFrom (.Owned p) ps =
      if ps = [] then .Owned p
      else if ∀ q ∈ ps, q = p then .CoOwned p
      else .Contended (ps.foldl max p) := by
  cases ps with
  | nil => rfl
  | cons q rest =>
    by_cases hq : q = p
    · subst hq
      have h1 : ownUpdate q (.Owned q) = .CoOwned q := by simp [ownUpdate]
      have h2 : ownFoldFrom (.Owned q) (q :: rest) = ownFoldFrom (.CoOwned q) rest := by
        show ownFoldFrom (ownUpdate q (.Owned q)) rest = _
        rw [h1]
      rw [h2, ownFoldFrom_coowned_char]
      by_cases hall : ∀ r ∈ rest, r = q
      · rw [if_pos hall, if_neg (by simp), if_pos (by simpa using hall)]
      · rw [if_neg hall, if_neg (by simp), if_neg (by simpa using hall)]
        simp
    · have h1 : ownUpdate q (.Owned p) = .Contended (max p q) := by simp [ownUpdate, hq]
      have h2 : ownFoldFrom (.Owned p) (q :: rest) = ownFoldFrom (.Contended (max p q)) rest := by
        show ownFoldFrom (ownUpdate q (.Owned p)) rest = _
        rw [h1]
      rw [h2, ownFoldFrom_contended]
      rw [if_neg (by simp), if_neg (by push_neg; exact ⟨q, List.mem_cons_self q rest, hq⟩)]
      rfl

theorem ceilingOf_ownFoldFrom (o : Ownership) (ps : List Nat) :
    ceilingOf (ownFoldFrom o ps) = ps.foldl max (ceilingOf o) := by
  induction ps generalizing o with
  | nil => rfl
  | cons q rest ih =>
    show ceilingOf (ownFoldFrom (ownUpdate q o) rest) = _
    rw [ih, ceilingOf_ownUpdate]
    rfl

theorem le_foldl_max (b : Nat) (l : List Nat) : b ≤ l.foldl max b := by
  induction l generalizing b with
  | nil => exact le_refl b
  | cons q rest ih => exact le_trans (Nat.le_max_left b q) (ih (max b q))

theorem mem_le_foldl_max (b q : Nat) (l : List Nat) (h : q ∈ l) : q ≤ l.foldl max b := by
  induction l generalizing b with
  | nil => simp at h
  | cons r rest ih =>
    rcases List.mem_cons.mp h with rfl | hr
    · exact le_trans (Nat.le_max_right b q) (le_foldl_max _ rest)
    · exact ih (max b r) hr

/-! ## Relating the access-triple loop to the per-resource folds -/

theorem getIM_ownsStep (m : List (Ident × Ownership)) (t : Option Nat × Ident × Access)
    (n : String) :
    getIM (ownsStep m t) n =
      if t.2.1.name = n then
        match t.1 with
        | none => getIM m n
        | some q => ownFoldStep (getIM m n) q
      else getIM m n := by
  obtain ⟨pr, id, acc⟩ := t
  cases pr with
  | none => simp [ownsStep]
  | some q =>
    by_cases hn : id.name = n
    · cases hg : getIM m id.name with
      | none => simp [ownsStep, hg, getIM_insertIM, hn, hn ▸ hg, ownFoldStep]
      | some ow => simp [ownsStep, hg, getIM_insertIM, hn, hn ▸ hg, ownFoldStep]
    · cases hg : getIM m id.name with
      | none => simp [ownsStep, hg, getIM_insertIM, hn]
      | some ow => simp [ownsStep, hg, getIM_insertIM, hn]

theorem getIM_ownsFold (l : List (Option Nat × Ident × Access))
    (m : List (Ident × Ownership)) (n : String) :
    getIM (l.foldl ownsStep m) n = ownFoldOpt (getIM m n) (prioritizedIn l n) := by
  induction l generalizing m with
  | nil => rfl
  | cons t rest ih =>
    rw [List.foldl_cons, ih]
    obtain ⟨pr, id, acc⟩ := t
    by_cases hn : id.name = n
    · cases pr with
      | none =>
        rw [getIM_ownsStep]
        simp [prioritizedIn, hn]
      | some q =>
        rw [getIM_ownsStep]
        simp only [hn, if_pos]
        have : prioritizedIn ((some q, id, acc) :: rest) n = q :: prioritizedIn rest n := by
          simp [prioritizedIn, hn]
        rw [this]
        rfl
    · rw [getIM_ownsStep]
      simp [prioritizedIn, hn]

theorem getIM_locsFold (l : List (Option Nat × Ident × Access))
    (m : List (Ident × Location)) (n : String) :
    getIM (l.foldl locsStep m) n =
      if ∃ t ∈ l, t.2.1.name = n then some Location.Owned else getIM m n := by
  induction l generalizing m with
  | nil => simp
  | cons t rest ih =>
    rw [List.foldl_cons, ih]
    by_cases hn : t.2.1.name = n
    · by_cases hr : ∃ u ∈ rest, u.2.1.name = n
      · rw [if_pos hr, if_pos ⟨t, List.mem_cons_self t rest, hn⟩]
      · rw [if_neg hr, if_pos ⟨t, List.mem_cons_self t rest, hn⟩]
        simp [locsStep, getIM_insertIM, hn]
    · by_cases hr : ∃ u ∈ rest, u.2.1.name = n
      · rw [if_pos hr, if_pos (by obtain ⟨u, hu, hun⟩ := hr; exact ⟨u, List.mem_cons_of_mem t hu, hun⟩)]
      · have hcons : ¬ ∃ u ∈ t :: rest, u.2.1.name = n := by
          rintro ⟨u, hu, hun⟩
          rcases List.mem_cons.mp hu with rfl | h
          · exact hn hun
          · exact hr ⟨u, h, hun⟩
        rw [if_neg hr, if_neg hcons]
        simp [locsStep, getIM_insertIM, hn]

theorem sharedFold_ownerships (a : App) (l : List (Option Nat × Ident × Access))
    (st : OwnState) :
    (l.foldl (sharedAccessStep a) st).ownerships = l.foldl ownsStep st.ownerships := by
  induction l generalizing st with
  | nil => rfl
  | cons t rest ih => exact ih (sharedAccessStep a st t)

theorem sharedFold_locs (a : App) (l : List (Option Nat × Ident × Access))
    (st : OwnState) :
    (l.foldl (sharedAccessStep a) st).locs = l.foldl locsStep st.locs := by
  induction l generalizing st with
  | nil => rfl
  | cons t rest ih => exact ih (sharedAccessStep a st t)

/-- The ownership recorded by the pass for resource `n` is exactly the
per-resource fold over its prioritized accesses. -/
theorem ownerships_char (a : App) (n : String) :
    getIM (sharedPass a).ownerships n = ownFoldOpt none (prioritizedAccesses a n) := by
  rw [sharedPass, sharedFold_ownerships, getIM_ownsFold]
  rfl

/-- The location recorded by the pass for resource `n`: present exactly when
some access triple names `n`. -/
theorem locations_char (a : App) (n : String) :
    getIM (sharedPass a).locs n =
      if ∃ t ∈ a.shared_resource_accesses, t.2.1.name = n then some Location.Owned
      else none := by
  rw [sharedPass, sharedFold_locs, getIM_locsFold]
  rfl

theorem ownFoldOpt_some (o : Ownership) (ps : List Nat) :
    ownFoldOpt (some o) ps = some (ownFoldFrom o ps) := by
  induction ps generalizing o with
  | nil => rfl
  | cons q rest ih => exact ih (ownUpdate q o)

theorem ownFoldOpt_cons (p : Nat) (ps : List Nat) :
    ownFoldOpt none (p :: ps) = some (ownFoldFrom (.Owned p) ps) :=
  ownFoldOpt_some (.Owned p) ps

theorem prioritizedIn_eq_nil (l : List (Option Nat × Ident × Access)) (n : String)
    (h : ∀ t ∈ l, t.2.1.name = n → t.1 = none) : prioritizedIn l n = [] := by
  rw [prioritizedIn, List.filterMap_eq_nil_iff]
  intro t ht
  by_cases hn : t.2.1.name = n
  · simp [hn, h t ht hn]
  · simp [hn]

theorem exists_access_of_prioritized_ne_nil (l : List (Option Nat × Ident × Access))
    (n : String) (h : prioritizedIn l n ≠ []) :
    ∃ t ∈ l, t.2.1.name = n := by
  by_contra hno
  push_neg at hno
  exact h (prioritizedIn_eq_nil l n (fun t ht hn => absurd hn (hno t ht)))

/-- Inverting a successful run of the pass. -/
theorem appAnalyze_ok (a : App) (an : Analysis) (h : appAnalyze a = .ok an) :
    errorList a = [] ∧ an = analysisOf a := by
  unfold appAnalyze at h
  cases herr : errorList a with
  | nil =>
    rw [herr] at h
    refine ⟨rfl, ?_⟩
    injection h with h
    exact h.symm
  | cons e rest =>
    rw [herr] at h
    cases h

theorem analysisOf_ownerships (a : App) :
    (analysisOf a).ownerships = (sharedPass a).ownerships := rfl

theorem analysisOf_locations (a : App) :
    (analysisOf a).shared_resource_locations = (sharedPass a).locs := rfl

/-! ## Claim theorems (first group) -/

/-- C1: for every shared resource, folding all of its prioritized access
triples yields `Owned{P}` for exactly one access at priority `P`, `CoOwned{P}`
for two or more accesses all at `P`, and `Contended{ceiling}` for accesses at
two or more distinct priorities, the ceiling being the maximum access
priority; the ceiling is non-decreasing across the fold and never less than
any access priority seen; `{3,3}` folds to `CoOwned{3}`, `{3,5}` to
`Contended{5}`, `{3}` alone to `Owned{3}`. -/
theorem C1_ownership_fold (a : App) (n : String) (p : Nat) (ps : List Nat)
    (h : prioritizedAccesses a n = p :: ps) :
    getIM (analysisOf a).ownerships n = some (ownFoldFrom (.Owned p) ps)
    ∧ (ps = [] → ownFoldFrom (.Owned p) ps = .Owned p)
    ∧ (ps ≠ [] → (∀ q ∈ ps, q = p) → ownFoldFrom (.Owned p) ps = .CoOwned p)
    ∧ ((∃ q ∈ ps, q ≠ p) → ownFoldFrom (.Owned p) ps = .Contended (ps.foldl max p))
    ∧ (∀ q ∈ p :: ps, q ≤ ceilingOf (ownFoldFrom (.Owned p) ps))
    ∧ (∀ qs q, ceilingOf (ownFoldFrom (.Owned p) qs) ≤
        ceilingOf (ownFoldFrom (.Owned p) (qs ++ [q])))
    ∧ ownFoldFrom (.Owned 3) [3] = .CoOwned 3
    ∧ ownFoldFrom (.Owned 3) [5] = .Contended 5
    ∧ ownFoldFrom (.Owned 3) [] = .Owned 3 := by
  refine ⟨?_, ?_, ?_, ?_, ?_, ?_, by decide, by decide, rfl⟩
  · rw [analysisOf_ownerships, ownerships_char, h, ownFoldOpt_cons]
  · intro hnil
    rw [ownFoldFrom_owned_char, if_pos hnil]
  · intro hne hall
    rw [ownFoldFrom_owned_char, if_neg hne, if_pos hall]
  · intro hex
    have hne : ps ≠ [] := by
      obtain ⟨q, hq, -⟩ := hex
      exact List.ne_nil_of_mem hq
    have hnall : ¬ ∀ q ∈ ps, q = p := by
      obtain ⟨q, hq, hqp⟩ := hex
      exact fun hall => hqp (hall q hq)
    rw [ownFoldFrom_owned_char, if_neg hne, if_neg hnall]
  · intro q hq
    rw [ceilingOf_ownFoldFrom]
    rcases List.mem_cons.mp hq with rfl | hmem
    · exact le_foldl_max _ ps
    · exact mem_le_foldl_max _ q ps hmem
  · intro qs q
    rw [ceilingOf_ownFoldFrom, ceilingOf_ownFoldFrom, List.foldl_append]
    exact le_foldl_max _ [q]

/-- Witness for C1: in `appC1`, resource `x` has prioritized accesses
`[3, 5]` and folds to `Contended{5}`. -/
theorem C1_ownership_fold_witness :
    prioritizedAccesses appC1 "x" = 3 :: [5]
    ∧ getIM (analysisOf appC1).ownerships "x" = some (ownFoldFrom (.Owned 3) [5]) :=
  ⟨by decide, (C1_ownership_fold appC1 "x" 3 [5] (by decide)).1⟩

/-- C2: `needs_lock(p)` is false on `Owned` and `CoOwned`; on
`Contended{ceiling}` (queried under the precondition `ceiling ≥ p`) it is
true exactly when `p < ceiling`; ceiling 5 and priority 3 give true, ceiling
5 and priority 5 give false. -/
theorem C2_needs_lock (o : Ownership) (p : Nat)
    (hpre : ∀ c, o = .Contended c → p ≤ c) :
    (∀ q, o = .Owned q → o.needs_lock p = false)
    ∧ (∀ q, o = .CoOwned q → o.needs_lock p = false)
    ∧ (∀ c, o = .Contended c → (o.needs_lock p = true ↔ p < c))
    ∧ (Ownership.Contended 5).needs_lock 3 = true
    ∧ (Ownership.Contended 5).needs_lock 5 = false := by
  refine ⟨?_, ?_, ?_, by decide, by decide⟩
  · rintro q rfl; rfl
  · rintro q rfl; rfl
  · rintro c rfl
    simp [Ownership.needs_lock]

/-- Witness for C2 at `Contended{5}` queried at priority 3. -/
theorem C2_needs_lock_witness :
    (Ownership.Contended 5).needs_lock 3 = true := by
  have hpre : ∀ c, Ownership.Contended 5 = .Contended c → 3 ≤ c := by
    intro c hc
    injection hc with hc
    omega
  exact ((C2_needs_lock (.Contended 5) 3 hpre).2.2.1 5 rfl).mpr (by omega)

/-- C9: the analysis is deterministic: two runs on the identical application
model produce identical results (the whole `Except` value: on success the
same channels, location maps, task list, ownerships and type sets in the same
order, on failure the same diagnostic list in the same order). -/
theorem C9_deterministic (a b : App) (h : a = b) : appAnalyze a = appAnalyze b := by
  rw [h]

/-- Witness for C9 at `appOK`. -/
theorem C9_deterministic_witness : appAnalyze appOK = appAnalyze appOK :=
  C9_deterministic appOK appOK rfl

/-- C10: in every successful analysis result, every resource with an
ownership classification is also present in the shared-resource location
map. -/
theorem C10_ownership_implies_live (a : App) (an : Analysis) (n : String)
    (hok : appAnalyze a = .ok an)
    (hown : (getIM an.ownerships n).isSome) :
    (getIM an.shared_resource_locations n).isSome := by
  obtain ⟨-, rfl⟩ := appAnalyze_ok a an hok
  rw [analysisOf_ownerships, ownerships_char] at hown
  rw [analysisOf_locations, locations_char]
  cases hps : prioritizedAccesses a n with
  | nil =>
    rw [hps] at hown
    simp [ownFoldOpt] at hown
  | cons p ps =>
    have hne : prioritizedIn a.shared_resource_accesses n ≠ [] := by
      have : prioritizedIn a.shared_resource_accesses n = p :: ps := hps
      simp [this]
    rw [if_pos (exists_access_of_prioritized_ne_nil _ n hne)]
    rfl

/-- Witness for C10 at `appOK` and resource `x`. -/
theorem C10_ownership_implies_live_witness :
    (getIM (analysisOf appOK).shared_resource_locations "x").isSome = true :=
  C10_ownership_implies_live appOK (analysisOf appOK) "x" (by rfl) (by decide)

/-! ## Local resource locations -/

theorem getIM_insertOwnedFold (ids : List Ident) (m : List (Ident × Location))
    (n : String) :
    getIM (ids.foldl (fun m l => insertIM l Location.Owned m) m) n =
      if ∃ l ∈ ids, l.name = n then some Location.Owned else getIM m n := by
  induction ids generalizing m with
  | nil => simp
  | cons i rest ih =>
    rw [List.foldl_cons, ih]
    by_cases hi : i.name = n
    · by_cases hr : ∃ l ∈ rest, l.name = n
      · rw [if_pos hr, if_pos ⟨i, List.mem_cons_self i rest, hi⟩]
      · rw [if_neg hr, if_pos ⟨i, List.mem_cons_self i rest, hi⟩]
        simp [getIM_insertIM, hi]
    · by_cases hr : ∃ l ∈ rest, l.name = n
      · have : ∃ l ∈ i :: rest, l.name = n := by
          obtain ⟨l, hl, hln⟩ := hr
          exact ⟨l, List.mem_cons_of_mem i hl, hln⟩
        rw [if_pos hr, if_pos this]
      · have : ¬ ∃ l ∈ i :: rest, l.name = n := by
          rintro ⟨l, hl, hln⟩
          rcases List.mem_cons.mp hl with rfl | hm
          · exact hi hln
          · exact hr ⟨l, hm, hln⟩
        rw [if_neg hr, if_neg this]
        simp [getIM_insertIM, hi]

theorem getIM_localLocFold (trl : List TaskDesc) (m : List (Ident × Location))
    (n : String) :
    getIM (trl.foldl
        (fun m t => t.locals.foldl (fun m l => insertIM l Location.Owned m) m) m) n =
      if ∃ td ∈ trl, ∃ l ∈ td.locals, l.name = n then some Location.Owned
      else getIM m n := by
  induction trl generalizing m with
  | nil => simp
  | cons t rest ih =>
    rw [List.foldl_cons, ih]
    by_cases ht : ∃ l ∈ t.locals, l.name = n
    · by_cases hr : ∃ td ∈ rest, ∃ l ∈ td.locals, l.name = n
      · rw [if_pos hr, if_pos ⟨t, List.mem_cons_self t rest, ht⟩]
      · rw [if_neg hr, if_pos ⟨t, List.mem_cons_self t rest, ht⟩, getIM_insertOwnedFold,
          if_pos ht]
    · by_cases hr : ∃ td ∈ rest, ∃ l ∈ td.locals, l.name = n
      · have : ∃ td ∈ t :: rest, ∃ l ∈ td.locals, l.name = n := by
          obtain ⟨td, htd, hl⟩ := hr
          exact ⟨td, List.mem_cons_of_mem t htd, hl⟩
        rw [if_pos hr, if_pos this]
      · have : ¬ ∃ td ∈ t :: rest, ∃ l ∈ td.locals, l.name = n := by
          rintro ⟨td, htd, hl⟩
          rcases List.mem_cons.mp htd with rfl | hm
          · exact ht hl
          · exact hr ⟨td, hm, hl⟩
        rw [if_neg hr, if_neg this, getIM_insertOwnedFold, if_neg ht]

theorem localLocations_char (a : App) (n : String) :
    getIM (localLocations a) n =
      if ∃ td ∈ task_resources_list a, ∃ l ∈ td.locals, l.name = n
      then some Location.Owned else none := by
  rw [localLocations, getIM_localLocFold]
  rfl

theorem analysisOf_localLocations (a : App) :
    (analysisOf a).local_resource_locations = localLocations a := rfl

/-- C8: in a successful analysis a resource is in the shared-resource
location map exactly when it has at least one access triple; priority-less
triples still register the resource as live while contributing no ownership;
and a declared resource with no access site in the whole program appears in
neither location map. -/
theorem C8_location_maps (a : App) (an : Analysis) (n : String)
    (hok : appAnalyze a = .ok an) :
    ((getIM an.shared_resource_locations n).isSome ↔
      ∃ t ∈ a.shared_resource_accesses, t.2.1.name = n)
    ∧ (∀ t ∈ a.shared_resource_accesses, t.1 = none → t.2.1.name = n →
        (getIM an.shared_resource_locations n).isSome)
    ∧ ((∀ t ∈ a.shared_resource_accesses, t.2.1.name = n → t.1 = none) →
        getIM an.ownerships n = none)
    ∧ ((¬ ∃ t ∈ a.shared_resource_accesses, t.2.1.name = n) →
        getIM an.shared_resource_locations n = none)
    ∧ ((¬ ∃ td ∈ task_resources_list a, ∃ l ∈ td.locals, l.name = n) →
        getIM an.local_resource_locations n = none) := by
  obtain ⟨-, rfl⟩ := appAnalyze_ok a an hok
  rw [analysisOf_locations, analysisOf_ownerships, analysisOf_localLocations,
    locations_char, ownerships_char, localLocations_char]
  refine ⟨?_, ?_, ?_, ?_, ?_⟩
  · by_cases hex : ∃ t ∈ a.shared_resource_accesses, t.2.1.name = n
    · simp [if_pos hex, hex]
    · simp [if_neg hex, hex]
  · intro t ht hnone hname
    rw [if_pos ⟨t, ht, hname⟩]
    rfl
  · intro hall
    rw [prioritizedAccesses, prioritizedIn_eq_nil a.shared_resource_accesses n hall]
    rfl
  · intro hex
    rw [if_neg hex]
  · intro hex
    rw [if_neg hex]

/-- Witness for C8 at `appOK`: resource `x` is live; the dead resource `d`
is in neither location map. -/
theorem C8_location_maps_witness :
    (getIM (analysisOf appOK).shared_resource_locations "x").isSome = true
    ∧ getIM (analysisOf appOK).shared_resource_locations "d" = none
    ∧ getIM (analysisOf appOK).local_resource_locations "d" = none := by
  have hx := C8_location_maps appOK (analysisOf appOK) "x" (by rfl)
  have hd := C8_location_maps appOK (analysisOf appOK) "d" (by rfl)
  exact ⟨hx.1.mpr (by decide), hd.2.2.2.1 (by decide), hd.2.2.2.2 (by decide)⟩

/-- Reduction of the pass when the validators produced diagnostics. -/
theorem appAnalyze_error (a : App) (e : Diag) (rest : List Diag)
    (h : errorList a = e :: rest) : appAnalyze a = .error (e :: (e :: rest)) := by
  unfold appAnalyze
  rw [h]

/-- C4: when the validators found any violation, the pass returns the
aggregate diagnostic (the ordered, non-empty list of every collected
violation, produced by running both validators over the entire application,
the first one duplicated by the combine loop) and no analysis result. -/
theorem C4_error_aggregation (a : App) (h : errorList a ≠ []) :
    (∃ e rest, errorList a = e :: rest ∧ appAnalyze a = .error (e :: (e :: rest)))
    ∧ errorList a = lfSummaryDiags a ++ lfSiteDiags a ++ lrDiags a
    ∧ ∀ an, appAnalyze a ≠ .ok an := by
  obtain ⟨e, rest, herr⟩ : ∃ e rest, errorList a = e :: rest := by
    cases herr : errorList a with
    | nil => exact absurd herr h
    | cons e rest => exact ⟨e, rest, rfl⟩
  refine ⟨⟨e, rest, herr, appAnalyze_error a e rest herr⟩, rfl, ?_⟩
  intro an hok
  rw [appAnalyze_error a e rest herr] at hok
  cases hok

/-- Witness for C4 at `appLR` (a local-resource collision). -/
theorem C4_error_aggregation_witness :
    ∃ e rest, errorList appLR = e :: rest
      ∧ appAnalyze appLR = .error (e :: (e :: rest)) :=
  (C4_error_aggregation appLR (by decide)).1

/-! ## Hash map and nested-loop lemmas -/

theorem hashInsert_fst {α : Type} (k : String) (v : α) (m : List (String × α)) :
    (hashInsert k v m).1 = lookupH m k := by
  induction m with
  | nil => rfl
  | cons p rest ih =>
    obtain ⟨k', v'⟩ := p
    by_cases h : k' = k <;> simp [hashInsert, lookupH, List.find?_cons, h, ih, lookupH]

theorem lookupH_hashInsert {α : Type} (k : String) (v : α) (m : List (String × α))
    (k' : String) :
    lookupH (hashInsert k v m).2 k' = if k' = k then some v else lookupH m k' := by
  induction m with
  | nil =>
    by_cases h : k' = k
    · subst h
      simp [hashInsert, lookupH, List.find?_cons]
    · have h2 : ¬ k = k' := fun hh => h hh.symm
      simp [hashInsert, lookupH, List.find?_cons, h, h2]
  | cons p rest ih =>
    obtain ⟨k'', v''⟩ := p
    by_cases h1 : k'' = k
    · subst h1
      by_cases h2 : k' = k''
      · subst h2
        simp [hashInsert, lookupH, List.find?_cons]
      · have h3 : ¬ k'' = k' := fun hh => h2 hh.symm
        simp [hashInsert, lookupH, List.find?_cons, h2, h3]
    · by_cases h2 : k'' = k'
      · have h3 : ¬ k' = k := fun hh => h1 (h2.trans hh)
        simp [hashInsert, lookupH, List.find?_cons, h1, h2, h3]
      · simp only [hashInsert, if_neg h1]
        simp only [lookupH, List.find?_cons] at ih ⊢
        simp [h2, ih]

theorem foldl_localPairs {σ : Type} (g : σ → String × Ident → σ)
    (trl : List TaskDesc) (st : σ) :
    trl.foldl (fun st t => t.locals.foldl (fun st r => g st (t.name, r)) st) st
      = (allLocalPairs trl).foldl g st := by
  induction trl generalizing st with
  | nil => rfl
  | cons t rest ih =>
    have h1 : t.locals.foldl (fun st r => g st (t.name, r)) st
        = (t.locals.map (fun r => (t.name, r))).foldl g st := by
      rw [List.foldl_map]
    have h2 : allLocalPairs (t :: rest)
        = t.locals.map (fun r => (t.name, r)) ++ allLocalPairs rest := by
      simp [allLocalPairs]
    rw [List.foldl_cons, h1, ih, h2, List.foldl_append]

theorem foldl_sharedPairs {σ : Type} (g : σ → String × Nat × Ident → σ)
    (trl : List TaskDesc) (st : σ) :
    trl.foldl (fun st t => t.shared.foldl (fun st r => g st (t.name, t.priority, r)) st) st
      = (allSharedPairs trl).foldl g st := by
  induction trl generalizing st with
  | nil => rfl
  | cons t rest ih =>
    have h1 : t.shared.foldl (fun st r => g st (t.name, t.priority, r)) st
        = (t.shared.map (fun r => (t.name, t.priority, r))).foldl g st := by
      rw [List.foldl_map]
    have h2 : allSharedPairs (t :: rest)
        = t.shared.map (fun r => (t.name, t.priority, r)) ++ allSharedPairs rest := by
      simp [allSharedPairs]
    rw [List.foldl_cons, h1, ih, h2, List.foldl_append]

theorem foldl_filter_guard {σ β : Type} (P : β → Prop) [DecidablePred P]
    (body : σ → β → σ) (l : List β) (st : σ) :
    l.foldl (fun st p => if P p then body st p else st) st
      = (l.filter (fun p => P p)).foldl body st := by
  induction l generalizing st with
  | nil => rfl
  | cons x rest ih =>
    by_cases h : P x
    · simp [List.foldl_cons, List.filter_cons, h, ih]
    · simp [List.foldl_cons, List.filter_cons, h, ih]

/-! ## The local-resource scan, resource by resource -/

theorem localOccsT_names (trl : List TaskDesc) (n : String) :
    ∀ p ∈ localOccsT trl n, p.2.name = n := by
  intro p hp
  have := List.of_mem_filter hp
  simp only [decide_eq_true_eq] at this
  exact this.symm

theorem lrScan_eq_proc (locals : List Ident) (trl : List TaskDesc) :
    lrScan locals trl
      = locals.foldl
          (fun st lr => (localOccsT trl lr.name).foldl (fun st p => lrBody p.1 p.2 st) st)
          ⟨[], []⟩ := by
  rw [lrScan]
  congr 1
  funext st lr
  rw [foldl_localPairs (fun st p => lrStep lr p.1 p.2 st) trl st]
  simp only [lrStep]
  exact foldl_filter_guard (fun p => lr.name = p.2.name)
    (fun st p => lrBody p.1 p.2 st) (allLocalPairs trl) st

theorem lrProc_run (n : String) (occs : List (String × Ident)) (st : LRState)
    (prev : String × Ident)
    (hnames : ∀ p ∈ occs, p.2.name = n)
    (hhash : lookupH st.lr_hash n = some prev) :
    (occs.foldl (fun st p => lrBody p.1 p.2 st) st).errs
        = st.errs ++ lrChain prev.2 (occs.map (fun p => p.2))
    ∧ ∀ k, k ≠ n →
        lookupH (occs.foldl (fun st p => lrBody p.1 p.2 st) st).lr_hash k
          = lookupH st.lr_hash k := by
  induction occs generalizing st prev with
  | nil => simp [lrChain]
  | cons p rest ih =>
    have hpn : p.2.name = n := hnames p (List.mem_cons_self p rest)
    have hins1 : (hashInsert p.2.name (p.1, p.2) st.lr_hash).1 = some prev := by
      rw [hashInsert_fst, hpn, hhash]
    have hbody : lrBody p.1 p.2 st
        = ⟨(hashInsert p.2.name (p.1, p.2) st.lr_hash).2, st.errs ++ [prev.2, p.2]⟩ := by
      simp [lrBody, hins1]
    have hhash' : lookupH (lrBody p.1 p.2 st).lr_hash n = some (p.1, p.2) := by
      rw [hbody, lookupH_hashInsert, hpn, if_pos rfl]
    have hrest : ∀ q ∈ rest, q.2.name = n :=
      fun q hq => hnames q (List.mem_cons_of_mem p hq)
    obtain ⟨iherrs, ihhash⟩ := ih (lrBody p.1 p.2 st) (p.1, p.2) hrest hhash'
    constructor
    · rw [List.foldl_cons, iherrs, hbody]
      simp [lrChain]
    · intro k hk
      rw [List.foldl_cons, ihhash k hk, hbody, lookupH_hashInsert, hpn,
        if_neg hk]

theorem lrProc_start (n : String) (occs : List (String × Ident)) (st : LRState)
    (hnames : ∀ p ∈ occs, p.2.name = n)
    (hhash : lookupH st.lr_hash n = none) :
    (occs.foldl (fun st p => lrBody p.1 p.2 st) st).errs
        = st.errs ++ lrFlagOf (occs.map (fun p => p.2))
    ∧ ∀ k, k ≠ n →
        lookupH (occs.foldl (fun st p => lrBody p.1 p.2 st) st).lr_hash k
          = lookupH st.lr_hash k := by
  cases occs with
  | nil => simp [lrFlagOf]
  | cons p rest =>
    have hpn : p.2.name = n := hnames p (List.mem_cons_self p rest)
    have hins1 : (hashInsert p.2.name (p.1, p.2) st.lr_hash).1 = none := by
      rw [hashInsert_fst, hpn, hhash]
    have hbody : lrBody p.1 p.2 st
        = ⟨(hashInsert p.2.name (p.1, p.2) st.lr_hash).2, st.errs⟩ := by
      simp [lrBody, hins1]
    have hhash' : lookupH (lrBody p.1 p.2 st).lr_hash n = some (p.1, p.2) := by
      rw [hbody, lookupH_hashInsert, hpn, if_pos rfl]
    have hrest : ∀ q ∈ rest, q.2.name = n :=
      fun q hq => hnames q (List.mem_cons_of_mem p hq)
    obtain ⟨iherrs, ihhash⟩ := lrProc_run n rest (lrBody p.1 p.2 st) (p.1, p.2) hrest hhash'
    constructor
    · rw [List.foldl_cons, iherrs, hbody]
      simp [lrFlagOf]
    · intro k hk
      rw [List.foldl_cons, ihhash k hk, hbody, lookupH_hashInsert, hpn, if_neg hk]

theorem lrScan_errs (locals : List Ident) (trl : List TaskDesc) (st : LRState)
    (hnodup : (locals.map (fun l => l.name)).Nodup)
    (hfresh : ∀ lr ∈ locals, lookupH st.lr_hash lr.name = none) :
    (locals.foldl
        (fun st lr => (localOccsT trl lr.name).foldl (fun st p => lrBody p.1 p.2 st) st)
        st).errs
      = st.errs
        ++ (locals.map (fun lr => lrFlagOf (localOccs trl lr.name))).flatten
    ∧ ∀ k, (∀ lr ∈ locals, lr.name ≠ k) →
        lookupH (locals.foldl
          (fun st lr => (localOccsT trl lr.name).foldl (fun st p => lrBody p.1 p.2 st) st)
          st).lr_hash k = lookupH st.lr_hash k := by
  induction locals generalizing st with
  | nil => simp
  | cons lr rest ih =>
    obtain ⟨herrs1, hhash1⟩ :=
      lrProc_start lr.name (localOccsT trl lr.name) st (localOccsT_names trl lr.name)
        (hfresh lr (List.mem_cons_self lr rest))
    have hnodup' : (rest.map (fun l => l.name)).Nodup := (List.nodup_cons.mp hnodup).2
    have hnotin : lr.name ∉ rest.map (fun l => l.name) := (List.nodup_cons.mp hnodup).1
    set st1 := (localOccsT trl lr.name).foldl (fun st p => lrBody p.1 p.2 st) st with hst1
    have hfresh' : ∀ lr' ∈ rest, lookupH st1.lr_hash lr'.name = none := by
      intro lr' hlr'
      have hne : lr'.name ≠ lr.name := by
        intro he
        exact hnotin (he ▸ List.mem_map_of_mem (fun l => l.name) hlr')
      rw [hhash1 lr'.name hne]
      exact hfresh lr' (List.mem_cons_of_mem lr hlr')
    obtain ⟨iherrs, ihhash⟩ := ih st1 hnodup' hfresh'
    constructor
    · rw [List.foldl_cons, ← hst1, iherrs, herrs1]
      simp [localOccs, List.append_assoc]
    · intro k hk
      rw [List.foldl_cons, ← hst1, ihhash k (fun l hl => hk l (List.mem_cons_of_mem lr hl)),
        hhash1 k (Ne.symm (hk lr (List.mem_cons_self lr rest)))]

/-- The flagged sites of the local-resource scan: the concatenation, over the
declared local resources, of the consecutive-pair chains of each resource's
access sites. -/
theorem lrFlagged_eq (a : App)
    (hnodup : (a.local_resources.map (fun p => p.1.name)).Nodup) :
    lrFlagged a
      = ((a.local_resources.map (fun p => p.1)).map
          (fun lr => lrFlagOf (localOccs (task_resources_list a) lr.name))).flatten := by
  rw [lrFlagged, lrScan_eq_proc]
  have hnd : ((a.local_resources.map (fun p => p.1)).map (fun l => l.name)).Nodup := by
    rw [List.map_map]
    exact hnodup
  have hfresh : ∀ lr ∈ a.local_resources.map (fun p => p.1),
      lookupH (LRState.mk [] []).lr_hash lr.name = none := by
    intro lr _
    rfl
  obtain ⟨herrs, -⟩ :=
    lrScan_errs (a.local_resources.map (fun p => p.1)) (task_resources_list a)
      ⟨[], []⟩ hnd hfresh
  rw [herrs]
  rfl

theorem mem_lrChain (s x : Ident) (l : List Ident) :
    s ∈ lrChain x l ↔ l ≠ [] ∧ (s = x ∨ s ∈ l) := by
  induction l generalizing x with
  | nil => simp [lrChain]
  | cons y rest ih =>
    have hred : lrChain x (y :: rest) = x :: y :: lrChain y rest := rfl
    rw [hred]
    constructor
    · intro h
      refine ⟨List.cons_ne_nil y rest, ?_⟩
      rcases List.mem_cons.mp h with rfl | h2
      · exact Or.inl rfl
      rcases List.mem_cons.mp h2 with rfl | h3
      · exact Or.inr (List.mem_cons_self s rest)
      · rcases ((ih y).mp h3).2 with rfl | hs
        · exact Or.inr (List.mem_cons_self s rest)
        · exact Or.inr (List.mem_cons_of_mem y hs)
    · rintro ⟨-, h⟩
      rcases h with rfl | h2
      · exact List.mem_cons_self s _
      · rcases List.mem_cons.mp h2 with rfl | hs
        · exact List.mem_cons_of_mem x (List.mem_cons_self s _)
        · exact List.mem_cons_of_mem x (List.mem_cons_of_mem y
            ((ih y).mpr ⟨List.ne_nil_of_mem hs, Or.inr hs⟩))

theorem mem_lrFlagOf (s : Ident) (l : List Ident) :
    s ∈ lrFlagOf l ↔ 2 ≤ l.length ∧ s ∈ l := by
  cases l with
  | nil => simp [lrFlagOf]
  | cons x rest =>
    cases rest with
    | nil => simp [lrFlagOf, lrChain]
    | cons y rest2 =>
      have h2 : 2 ≤ (x :: y :: rest2).length := by
        simp [List.length_cons]
      rw [show lrFlagOf (x :: y :: rest2) = lrChain x (y :: rest2) from rfl, mem_lrChain]
      simp [h2, List.mem_cons]

theorem lrFlagOf_eq_nil (l : List Ident) : lrFlagOf l = [] ↔ l.length ≤ 1 := by
  cases l with
  | nil => simp [lrFlagOf]
  | cons x rest =>
    cases rest with
    | nil => simp [lrFlagOf, lrChain]
    | cons y rest2 =>
      simp only [lrFlagOf, lrChain]
      simp [List.length_cons]

/-- The local-resource validator is silent exactly when every declared local
resource has at most one access site. -/
theorem lrDiags_eq_nil_iff (a : App)
    (hnodup : (a.local_resources.map (fun p => p.1.name)).Nodup) :
    lrDiags a = [] ↔
      ∀ p ∈ a.local_resources, (localOccs (task_resources_list a) p.1.name).length ≤ 1 := by
  have hflag := lrFlagged_eq a hnodup
  rw [lrDiags, List.map_eq_nil_iff, hflag, List.flatten_eq_nil_iff]
  constructor
  · intro hall p hp
    rw [← lrFlagOf_eq_nil]
    refine hall _ ?_
    exact List.mem_map_of_mem _ (List.mem_map_of_mem (fun p => p.1) hp)
  · intro hall l hl
    rw [List.mem_map] at hl
    obtain ⟨lr, hlr, rfl⟩ := hl
    rw [List.mem_map] at hlr
    obtain ⟨p, hp, rfl⟩ := hlr
    rw [lrFlagOf_eq_nil]
    exact hall p hp

/-- C5: a local resource referenced from exactly one access site passes the
local-resource validator (no collision diagnostics at all exactly when every
declared local resource has at most one access site); one referenced from two
or more access sites has every one of its sites — the original and each
additional one — flagged and reported in a collision diagnostic, and the
analysis fails. -/
theorem C5_local_exclusivity (a : App)
    (hnodup : (a.local_resources.map (fun p => p.1.name)).Nodup) :
    (lrDiags a = [] ↔
      ∀ p ∈ a.local_resources, (localOccs (task_resources_list a) p.1.name).length ≤ 1)
    ∧ (∀ p ∈ a.local_resources,
        2 ≤ (localOccs (task_resources_list a) p.1.name).length →
        (∀ s ∈ localOccs (task_resources_list a) p.1.name,
          s ∈ lrFlagged a
          ∧ Diag.mk s.span
              ("Local resource " ++ s.name ++ " is used by or collides with multiple tasks")
            ∈ lrDiags a)
        ∧ ∀ an, appAnalyze a ≠ .ok an) := by
  have hflag := lrFlagged_eq a hnodup
  constructor
  · exact lrDiags_eq_nil_iff a hnodup
  · intro p hp hlen
    have hmem : ∀ s ∈ localOccs (task_resources_list a) p.1.name,
        s ∈ lrFlagged a
        ∧ Diag.mk s.span
            ("Local resource " ++ s.name ++ " is used by or collides with multiple tasks")
          ∈ lrDiags a := by
      intro s hs
      have hsf : s ∈ lrFlagOf (localOccs (task_resources_list a) p.1.name) :=
        (mem_lrFlagOf s _).mpr ⟨hlen, hs⟩
      have hsl : s ∈ lrFlagged a := by
        rw [hflag, List.mem_flatten]
        refine ⟨lrFlagOf (localOccs (task_resources_list a) p.1.name), ?_, hsf⟩
        exact List.mem_map_of_mem _ (List.mem_map_of_mem (fun p => p.1) hp)
      have hname : s.name = p.1.name := by
        have := localOccsT_names (task_resources_list a) p.1.name
        rw [localOccs, List.mem_map] at hs
        obtain ⟨q, hq, rfl⟩ := hs
        exact this q hq
      refine ⟨hsl, ?_⟩
      rw [lrDiags, List.mem_map]
      exact ⟨s, hsl, by rw [hname]⟩
    refine ⟨hmem, ?_⟩
    intro an hok
    obtain ⟨hnil, -⟩ := appAnalyze_ok a an hok
    have hdiagnil : lrDiags a = [] := by
      rw [errorList] at hnil
      rcases List.append_eq_nil.mp hnil with ⟨-, h2⟩
      exact h2
    obtain ⟨s, hs⟩ : ∃ s, s ∈ localOccs (task_resources_list a) p.1.name := by
      cases hocc : localOccs (task_resources_list a) p.1.name with
      | nil => rw [hocc] at hlen; simp at hlen
      | cons x l => exact ⟨x, hocc ▸ List.mem_cons_self x l⟩
    have hmem2 := (hmem s hs).2
    rw [hdiagnil] at hmem2
    simp at hmem2

/-- Witness for C5 at `appLR`: both sites of the doubly-referenced local
resource `l` are flagged. -/
theorem C5_local_exclusivity_witness :
    (⟨"l", 20⟩ : Ident) ∈ lrFlagged appLR ∧ (⟨"l", 21⟩ : Ident) ∈ lrFlagged appLR := by
  have h := (C5_local_exclusivity appLR (by decide)).2 (⟨"l", 19⟩, ⟨"L"⟩)
    (by decide) (by decide)
  exact ⟨(h.1 ⟨"l", 20⟩ (by decide)).1, (h.1 ⟨"l", 21⟩ (by decide)).1⟩

/-! ## The lock-free scan, resource by resource -/

theorem sharedOccsT_names (trl : List TaskDesc) (n : String) :
    ∀ p ∈ sharedOccsT trl n, p.2.2.name = n := by
  intro p hp
  have := List.of_mem_filter hp
  simp only [decide_eq_true_eq] at this
  exact this.symm

theorem lfScan_eq_proc (lock_free : List Ident) (trl : List TaskDesc) :
    lfScan lock_free trl
      = lock_free.foldl
          (fun st lf =>
            (sharedOccsT trl lf.name).foldl (fun st p => lfBody p.1 p.2.1 p.2.2 st) st)
          ⟨[], []⟩ := by
  rw [lfScan]
  congr 1
  funext st lf
  rw [foldl_sharedPairs (fun st p => lfStep lf p.1 p.2.1 p.2.2 st) trl st]
  simp only [lfStep]
  exact foldl_filter_guard (fun p => lf.name = p.2.2.name)
    (fun st p => lfBody p.1 p.2.1 p.2.2 st) (allSharedPairs trl) st

theorem lfProc_bad (n : String) (occs : List (String × Nat × Ident)) (st : LFState)
    (t0 : String) (x : Ident) (px : Nat)
    (hnames : ∀ p ∈ occs, p.2.2.name = n)
    (hx : x.name = n)
    (hhash : lookupH st.lf_hash n = some (t0, x, px))
    (herrs : ∃ e ∈ st.errs, e.name = n) :
    (occs.foldl (fun st p => lfBody p.1 p.2.1 p.2.2 st) st).errs
        = st.errs ++ lfChainBad x px (occs.map (fun p => (p.2.2, p.2.1)))
    ∧ ∀ k, k ≠ n →
        lookupH (occs.foldl (fun st p => lfBody p.1 p.2.1 p.2.2 st) st).lf_hash k
          = lookupH st.lf_hash k := by
  induction occs generalizing st t0 x px with
  | nil => simp [lfChainBad]
  | cons p rest ih =>
    have hpn : p.2.2.name = n := hnames p (List.mem_cons_self p rest)
    have hins1 : (hashInsert p.2.2.name (p.1, p.2.2, p.2.1) st.lf_hash).1
        = some (t0, x, px) := by
      rw [hashInsert_fst, hpn, hhash]
    have hany1 :
        ((if p.2.1 ≠ px then st.errs ++ [x, p.2.2] else st.errs).any
          (fun e => e.name = p.2.2.name)) = true := by
      obtain ⟨e0, he0, he0n⟩ := herrs
      rw [List.any_eq_true]
      refine ⟨e0, ?_, by simp [he0n, hpn]⟩
      by_cases hc : p.2.1 ≠ px
      · rw [if_pos hc]
        exact List.mem_append_left _ he0
      · rw [if_neg hc]
        exact he0
    have hbody : lfBody p.1 p.2.1 p.2.2 st
        = ⟨(hashInsert p.2.2.name (p.1, p.2.2, p.2.1) st.lf_hash).2,
            (if p.2.1 ≠ px then st.errs ++ [x, p.2.2] else st.errs) ++ [x, p.2.2]⟩ := by
      simp only [lfBody, hins1, hany1, if_true]
    have hhash' : lookupH (lfBody p.1 p.2.1 p.2.2 st).lf_hash n
        = some (p.1, p.2.2, p.2.1) := by
      rw [hbody, lookupH_hashInsert, hpn, if_pos rfl]
    have hrest : ∀ q ∈ rest, q.2.2.name = n :=
      fun q hq => hnames q (List.mem_cons_of_mem p hq)
    have herrs' : ∃ e ∈ (lfBody p.1 p.2.1 p.2.2 st).errs, e.name = n := by
      rw [hbody]
      exact ⟨p.2.2, by simp, hpn⟩
    obtain ⟨iherrs, ihhash⟩ :=
      ih (lfBody p.1 p.2.1 p.2.2 st) p.1 p.2.2 p.2.1 hrest hpn hhash' herrs'
    constructor
    · rw [List.foldl_cons, iherrs, hbody]
      by_cases hc : p.2.1 ≠ px
      · rw [if_pos hc]
        have : lfChainBad x px ((p :: rest).map (fun p => (p.2.2, p.2.1)))
            = x :: p.2.2 :: x :: p.2.2
              :: lfChainBad p.2.2 p.2.1 (rest.map (fun p => (p.2.2, p.2.1))) := by
          simp [lfChainBad, hc]
        rw [this]
        simp
      · rw [if_neg hc]
        have : lfChainBad x px ((p :: rest).map (fun p => (p.2.2, p.2.1)))
            = x :: p.2.2
              :: lfChainBad p.2.2 p.2.1 (rest.map (fun p => (p.2.2, p.2.1))) := by
          simp [lfChainBad, hc]
        rw [this]
        simp
    · intro k hk
      rw [List.foldl_cons, ihhash k hk, hbody, lookupH_hashInsert, hpn, if_neg hk]

theorem lfProc_good (n : String) (occs : List (String × Nat × Ident)) (st : LFState)
    (t0 : String) (x : Ident) (px : Nat)
    (hnames : ∀ p ∈ occs, p.2.2.name = n)
    (hx : x.name = n)
    (hhash : lookupH st.lf_hash n = some (t0, x, px))
    (herrs : ∀ e ∈ st.errs, e.name ≠ n) :
    (occs.foldl (fun st p => lfBody p.1 p.2.1 p.2.2 st) st).errs
        = st.errs ++ lfChainGood x px (occs.map (fun p => (p.2.2, p.2.1)))
    ∧ ∀ k, k ≠ n →
        lookupH (occs.foldl (fun st p => lfBody p.1 p.2.1 p.2.2 st) st).lf_hash k
          = lookupH st.lf_hash k := by
  induction occs generalizing st t0 x px with
  | nil => simp [lfChainGood]
  | cons p rest ih =>
    have hpn : p.2.2.name = n := hnames p (List.mem_cons_self p rest)
    have hins1 : (hashInsert p.2.2.name (p.1, p.2.2, p.2.1) st.lf_hash).1
        = some (t0, x, px) := by
      rw [hashInsert_fst, hpn, hhash]
    have hrest : ∀ q ∈ rest, q.2.2.name = n :=
      fun q hq => hnames q (List.mem_cons_of_mem p hq)
    by_cases hc : p.2.1 ≠ px
    · -- the first conflicting access: both sites flagged twice, then the
      -- conflicting phase
      have hany1 : ((st.errs ++ [x, p.2.2]).any (fun e => e.name = p.2.2.name)) = true := by
        rw [List.any_eq_true]
        exact ⟨x, List.mem_append_right _ (by simp), by simp [hx, hpn]⟩
      have hbody : lfBody p.1 p.2.1 p.2.2 st
          = ⟨(hashInsert p.2.2.name (p.1, p.2.2, p.2.1) st.lf_hash).2,
              (st.errs ++ [x, p.2.2]) ++ [x, p.2.2]⟩ := by
        simp only [lfBody, hins1, if_pos hc, hany1, if_true]
      have hhash' : lookupH (lfBody p.1 p.2.1 p.2.2 st).lf_hash n
          = some (p.1, p.2.2, p.2.1) := by
        rw [hbody, lookupH_hashInsert, hpn, if_pos rfl]
      have herrs' : ∃ e ∈ (lfBody p.1 p.2.1 p.2.2 st).errs, e.name = n := by
        rw [hbody]
        exact ⟨p.2.2, by simp, hpn⟩
      obtain ⟨baderrs, badhash⟩ :=
        lfProc_bad n rest (lfBody p.1 p.2.1 p.2.2 st) p.1 p.2.2 p.2.1 hrest hpn hhash' herrs'
      constructor
      · rw [List.foldl_cons, baderrs, hbody]
        have : lfChainGood x px ((p :: rest).map (fun p => (p.2.2, p.2.1)))
            = x :: p.2.2 :: x :: p.2.2
              :: lfChainBad p.2.2 p.2.1 (rest.map (fun p => (p.2.2, p.2.1))) := by
          simp [lfChainGood, hc]
        rw [this]
        simp
      · intro k hk
        rw [List.foldl_cons, badhash k hk, hbody, lookupH_hashInsert, hpn, if_neg hk]
    · -- a same-priority access: nothing flagged, stay in the clean phase
      have hany1 : (st.errs.any (fun e => e.name = p.2.2.name)) = false := by
        rw [List.any_eq_false]
        intro e he
        simp [hpn, herrs e he]
      have hbody : lfBody p.1 p.2.1 p.2.2 st
          = ⟨(hashInsert p.2.2.name (p.1, p.2.2, p.2.1) st.lf_hash).2, st.errs⟩ := by
        simp only [lfBody, hins1, if_neg hc, hany1, Bool.false_eq_true, if_false]
      have hhash' : lookupH (lfBody p.1 p.2.1 p.2.2 st).lf_hash n
          = some (p.1, p.2.2, p.2.1) := by
        rw [hbody, lookupH_hashInsert, hpn, if_pos rfl]
      have herrs' : ∀ e ∈ (lfBody p.1 p.2.1 p.2.2 st).errs, e.name ≠ n := by
        rw [hbody]
        exact herrs
      obtain ⟨iherrs, ihhash⟩ :=
        ih (lfBody p.1 p.2.1 p.2.2 st) p.1 p.2.2 p.2.1 hrest hpn hhash' herrs'
      constructor
      · rw [List.foldl_cons, iherrs, hbody]
        have : lfChainGood x px ((p :: rest).map (fun p => (p.2.2, p.2.1)))
            = lfChainGood p.2.2 p.2.1 (rest.map (fun p => (p.2.2, p.2.1))) := by
          simp [lfChainGood, hc]
        rw [this]
      · intro k hk
        rw [List.foldl_cons, ihhash k hk, hbody, lookupH_hashInsert, hpn, if_neg hk]

theorem lfProc_start (n : String) (occs : List (String × Nat × Ident)) (st : LFState)
    (hnames : ∀ p ∈ occs, p.2.2.name = n)
    (hhash : lookupH st.lf_hash n = none)
    (herrs : ∀ e ∈ st.errs, e.name ≠ n) :
    (occs.foldl (fun st p => lfBody p.1 p.2.1 p.2.2 st) st).errs
        = st.errs ++ lfFlagOf (occs.map (fun p => (p.2.2, p.2.1)))
    ∧ ∀ k, k ≠ n →
        lookupH (occs.foldl (fun st p => lfBody p.1 p.2.1 p.2.2 st) st).lf_hash k
          = lookupH st.lf_hash k := by
  cases occs with
  | nil => simp [lfFlagOf]
  | cons p rest =>
    have hpn : p.2.2.name = n := hnames p (List.mem_cons_self p rest)
    have hins1 : (hashInsert p.2.2.name (p.1, p.2.2, p.2.1) st.lf_hash).1 = none := by
      rw [hashInsert_fst, hpn, hhash]
    have hbody : lfBody p.1 p.2.1 p.2.2 st
        = ⟨(hashInsert p.2.2.name (p.1, p.2.2, p.2.1) st.lf_hash).2, st.errs⟩ := by
      simp only [lfBody, hins1]
    have hhash' : lookupH (lfBody p.1 p.2.1 p.2.2 st).lf_hash n
        = some (p.1, p.2.2, p.2.1) := by
      rw [hbody, lookupH_hashInsert, hpn, if_pos rfl]
    have herrs' : ∀ e ∈ (lfBody p.1 p.2.1 p.2.2 st).errs, e.name ≠ n := by
      rw [hbody]
      exact herrs
    have hrest : ∀ q ∈ rest, q.2.2.name = n :=
      fun q hq => hnames q (List.mem_cons_of_mem p hq)
    obtain ⟨gerrs, ghash⟩ :=
      lfProc_good n rest (lfBody p.1 p.2.1 p.2.2 st) p.1 p.2.2 p.2.1 hrest hpn hhash' herrs'
    constructor
    · rw [List.foldl_cons, gerrs, hbody]
      rfl
    · intro k hk
      rw [List.foldl_cons, ghash k hk, hbody, lookupH_hashInsert, hpn, if_neg hk]

theorem lfChainBad_names (n : String) (x : Ident) (px : Nat) (l : List (Ident × Nat))
    (hx : x.name = n) (hl : ∀ y ∈ l, y.1.name = n) :
    ∀ e ∈ lfChainBad x px l, e.name = n := by
  induction l generalizing x px with
  | nil => simp [lfChainBad]
  | cons y rest ih =>
    have hy : y.1.name = n := hl y (List.mem_cons_self y rest)
    have hrest : ∀ z ∈ rest, z.1.name = n := fun z hz => hl z (List.mem_cons_of_mem y hz)
    intro e he
    by_cases hc : y.2 ≠ px
    · rw [show lfChainBad x px (y :: rest)
          = x :: y.1 :: x :: y.1 :: lfChainBad y.1 y.2 rest from by simp [lfChainBad, hc]] at he
      simp only [List.mem_cons] at he
      rcases he with rfl | rfl | rfl | rfl | he
      exacts [hx, hy, hx, hy, ih y.1 y.2 hy hrest e he]
    · rw [show lfChainBad x px (y :: rest)
          = x :: y.1 :: lfChainBad y.1 y.2 rest from by simp [lfChainBad, hc]] at he
      simp only [List.mem_cons] at he
      rcases he with rfl | rfl | he
      exacts [hx, hy, ih y.1 y.2 hy hrest e he]

theorem lfChainGood_names (n : String) (x : Ident) (px : Nat) (l : List (Ident × Nat))
    (hx : x.name = n) (hl : ∀ y ∈ l, y.1.name = n) :
    ∀ e ∈ lfChainGood x px l, e.name = n := by
  induction l generalizing x px with
  | nil => simp [lfChainGood]
  | cons y rest ih =>
    have hy : y.1.name = n := hl y (List.mem_cons_self y rest)
    have hrest : ∀ z ∈ rest, z.1.name = n := fun z hz => hl z (List.mem_cons_of_mem y hz)
    intro e he
    by_cases hc : y.2 ≠ px
    · rw [show lfChainGood x px (y :: rest)
          = x :: y.1 :: x :: y.1 :: lfChainBad y.1 y.2 rest from by simp [lfChainGood, hc]] at he
      simp only [List.mem_cons] at he
      rcases he with rfl | rfl | rfl | rfl | he
      exacts [hx, hy, hx, hy, lfChainBad_names n y.1 y.2 rest hy hrest e he]
    · rw [show lfChainGood x px (y :: rest)
          = lfChainGood y.1 y.2 rest from by simp [lfChainGood, hc]] at he
      exact ih y.1 y.2 hy hrest e he

theorem sharedOccs_names (trl : List TaskDesc) (n : String) :
    ∀ y ∈ sharedOccs trl n, y.1.name = n := by
  intro y hy
  rw [sharedOccs, List.mem_map] at hy
  obtain ⟨p, hp, rfl⟩ := hy
  exact sharedOccsT_names trl n p hp

theorem lfFlagOf_names (n : String) (l : List (Ident × Nat))
    (hl : ∀ y ∈ l, y.1.name = n) :
    ∀ e ∈ lfFlagOf l, e.name = n := by
  cases l with
  | nil => simp [lfFlagOf]
  | cons x rest =>
    exact lfChainGood_names n x.1 x.2 rest (hl x (List.mem_cons_self x rest))
      (fun z hz => hl z (List.mem_cons_of_mem x hz))

theorem lfScan_errs (lock_free : List Ident) (trl : List TaskDesc) (st : LFState)
    (hnodup : (lock_free.map (fun l => l.name)).Nodup)
    (hfresh : ∀ lf ∈ lock_free, lookupH st.lf_hash lf.name = none)
    (herrs : ∀ lf ∈ lock_free, ∀ e ∈ st.errs, e.name ≠ lf.name) :
    (lock_free.foldl
        (fun st lf =>
          (sharedOccsT trl lf.name).foldl (fun st p => lfBody p.1 p.2.1 p.2.2 st) st)
        st).errs
      = st.errs ++ (lock_free.map (fun lf => lfFlagOf (sharedOccs trl lf.name))).flatten
    ∧ ∀ k, (∀ lf ∈ lock_free, lf.name ≠ k) →
        lookupH (lock_free.foldl
          (fun st lf =>
            (sharedOccsT trl lf.name).foldl (fun st p => lfBody p.1 p.2.1 p.2.2 st) st)
          st).lf_hash k = lookupH st.lf_hash k := by
  induction lock_free generalizing st with
  | nil => simp
  | cons lf rest ih =>
    obtain ⟨herrs1, hhash1⟩ :=
      lfProc_start lf.name (sharedOccsT trl lf.name) st (sharedOccsT_names trl lf.name)
        (hfresh lf (List.mem_cons_self lf rest))
        (herrs lf (List.mem_cons_self lf rest))
    have hnodup' : (rest.map (fun l => l.name)).Nodup := (List.nodup_cons.mp hnodup).2
    have hnotin : lf.name ∉ rest.map (fun l => l.name) := (List.nodup_cons.mp hnodup).1
    set st1 := (sharedOccsT trl lf.name).foldl (fun st p => lfBody p.1 p.2.1 p.2.2 st) st
      with hst1
    have hfresh' : ∀ lf' ∈ rest, lookupH st1.lf_hash lf'.name = none := by
      intro lf' hlf'
      have hne : lf'.name ≠ lf.name := by
        intro he
        exact hnotin (he ▸ List.mem_map_of_mem (fun l => l.name) hlf')
      rw [hhash1 lf'.name hne]
      exact hfresh lf' (List.mem_cons_of_mem lf hlf')
    have herrs' : ∀ lf' ∈ rest, ∀ e ∈ st1.errs, e.name ≠ lf'.name := by
      intro lf' hlf' e he
      have hne : lf'.name ≠ lf.name := by
        intro heq
        exact hnotin (heq ▸ List.mem_map_of_mem (fun l => l.name) hlf')
      rw [herrs1] at he
      rcases List.mem_append.mp he with h1 | h2
      · exact herrs lf' (List.mem_cons_of_mem lf hlf') e h1
      · have : e.name = lf.name :=
          lfFlagOf_names lf.name (sharedOccs trl lf.name) (sharedOccs_names trl lf.name) e h2
        rw [this]
        exact fun heq => hne heq.symm
    obtain ⟨iherrs, ihhash⟩ := ih st1 hnodup' hfresh' herrs'
    constructor
    · rw [List.foldl_cons, ← hst1, iherrs, herrs1]
      simp [List.append_assoc, sharedOccs]
    · intro k hk
      rw [List.foldl_cons, ← hst1, ihhash k (fun l hl => hk l (List.mem_cons_of_mem lf hl)),
        hhash1 k (Ne.symm (hk lf (List.mem_cons_self lf rest)))]

/-- The flagged sites of the lock-free scan: the concatenation, over the
declared lock-free resources, of each resource's flagged-site chain. -/
theorem lfFlagged_eq (a : App)
    (hnodup : ((lockFreeList a).map (fun l => l.name)).Nodup) :
    lfFlagged a
      = ((lockFreeList a).map
          (fun lf => lfFlagOf (sharedOccs (task_resources_list a) lf.name))).flatten := by
  rw [lfFlagged, lfScan_eq_proc]
  obtain ⟨herrs, -⟩ :=
    lfScan_errs (lockFreeList a) (task_resources_list a) ⟨[], []⟩ hnodup
      (fun lf _ => rfl) (fun lf _ e he => absurd he (List.not_mem_nil e))
  rw [herrs]
  rfl

/-! ## Membership in the lock-free flag chains -/

theorem mem_lfChainBad (s : Ident) (x : Ident) (px : Nat) (l : List (Ident × Nat)) :
    s ∈ lfChainBad x px l ↔ l ≠ [] ∧ (s = x ∨ s ∈ l.map (fun y => y.1)) := by
  induction l generalizing x px with
  | nil => simp [lfChainBad]
  | cons y rest ih =>
    have hmap : (y :: rest).map (fun y => y.1) = y.1 :: rest.map (fun y => y.1) := rfl
    constructor
    · intro h
      refine ⟨List.cons_ne_nil y rest, ?_⟩
      rw [hmap]
      by_cases hc : y.2 ≠ px
      · rw [show lfChainBad x px (y :: rest)
            = x :: y.1 :: x :: y.1 :: lfChainBad y.1 y.2 rest from by simp [lfChainBad, hc]] at h
        simp only [List.mem_cons] at h
        rcases h with rfl | rfl | rfl | rfl | h
        · exact Or.inl rfl
        · exact Or.inr (List.mem_cons_self _ _)
        · exact Or.inl rfl
        · exact Or.inr (List.mem_cons_self _ _)
        · rcases ((ih y.1 y.2).mp h).2 with rfl | hs
          · exact Or.inr (List.mem_cons_self _ _)
          · exact Or.inr (List.mem_cons_of_mem _ hs)
      · rw [show lfChainBad x px (y :: rest)
            = x :: y.1 :: lfChainBad y.1 y.2 rest from by simp [lfChainBad, hc]] at h
        simp only [List.mem_cons] at h
        rcases h with rfl | rfl | h
        · exact Or.inl rfl
        · exact Or.inr (List.mem_cons_self _ _)
        · rcases ((ih y.1 y.2).mp h).2 with rfl | hs
          · exact Or.inr (List.mem_cons_self _ _)
          · exact Or.inr (List.mem_cons_of_mem _ hs)
    · rintro ⟨-, h⟩
      have hin : s = x ∨ s = y.1 ∨ s ∈ rest.map (fun y => y.1) := by
        rw [hmap] at h
        rcases h with rfl | h2
        · exact Or.inl rfl
        · rcases List.mem_cons.mp h2 with rfl | hs
          · exact Or.inr (Or.inl rfl)
          · exact Or.inr (Or.inr hs)
      have hrec : s = y.1 ∨ s ∈ rest.map (fun y => y.1) → s ∈ lfChainBad y.1 y.2 rest ∨ s = y.1 := by
        rintro (rfl | hs)
        · exact Or.inr rfl
        · refine Or.inl ((ih y.1 y.2).mpr ⟨?_, Or.inr hs⟩)
          rintro rfl
          simp at hs
      by_cases hc : y.2 ≠ px
      · rw [show lfChainBad x px (y :: rest)
            = x :: y.1 :: x :: y.1 :: lfChainBad y.1 y.2 rest from by simp [lfChainBad, hc]]
        simp only [List.mem_cons]
        rcases hin with rfl | hin2
        · exact Or.inl rfl
        · rcases hrec hin2 with hrec2 | rfl
          · exact Or.inr (Or.inr (Or.inr (Or.inr hrec2)))
          · exact Or.inr (Or.inl rfl)
      · rw [show lfChainBad x px (y :: rest)
            = x :: y.1 :: lfChainBad y.1 y.2 rest from by simp [lfChainBad, hc]]
        simp only [List.mem_cons]
        rcases hin with rfl | hin2
        · exact Or.inl rfl
        · rcases hrec hin2 with hrec2 | rfl
          · exact Or.inr (Or.inr hrec2)
          · exact Or.inr (Or.inl rfl)

theorem lfSpecSet_cons_cons (x y : Ident × Nat) (rest : List (Ident × Nat)) :
    lfSpecSet (x :: y :: rest)
      = if x.2 ≠ y.2 then x :: y :: rest else lfSpecSet (y :: rest) := rfl

theorem mem_lfChainGood (s : Ident) (x : Ident) (px : Nat) (l : List (Ident × Nat)) :
    s ∈ lfChainGood x px l ↔ s ∈ (lfSpecSet ((x, px) :: l)).map (fun y => y.1) := by
  induction l generalizing x px with
  | nil => simp [lfChainGood, lfSpecSet]
  | cons y rest ih =>
    by_cases hc : y.2 ≠ px
    · have hc2 : (x, px).2 ≠ y.2 := fun h => hc h.symm
      rw [show lfChainGood x px (y :: rest)
          = x :: y.1 :: x :: y.1 :: lfChainBad y.1 y.2 rest from by simp [lfChainGood, hc],
        lfSpecSet_cons_cons, if_pos hc2]
      simp only [List.map_cons, List.mem_cons]
      constructor
      · rintro (rfl | rfl | rfl | rfl | h)
        · exact Or.inl rfl
        · exact Or.inr (Or.inl rfl)
        · exact Or.inl rfl
        · exact Or.inr (Or.inl rfl)
        · rcases ((mem_lfChainBad s y.1 y.2 rest).mp h).2 with rfl | hs
          · exact Or.inr (Or.inl rfl)
          · exact Or.inr (Or.inr hs)
      · rintro (rfl | rfl | hs)
        · exact Or.inl rfl
        · exact Or.inr (Or.inl rfl)
        · refine Or.inr (Or.inr (Or.inr (Or.inr ?_)))
          refine (mem_lfChainBad s y.1 y.2 rest).mpr ⟨?_, Or.inr hs⟩
          rintro rfl
          simp at hs
    · have hc2 : ¬ (x, px).2 ≠ y.2 := by
        simp only [not_not] at hc ⊢
        exact hc.symm
      rw [show lfChainGood x px (y :: rest)
          = lfChainGood y.1 y.2 rest from by simp [lfChainGood, hc],
        lfSpecSet_cons_cons, if_neg hc2]
      have := ih y.1 y.2
      simpa using this

theorem mem_lfFlagOf (s : Ident) (l : List (Ident × Nat)) :
    s ∈ lfFlagOf l ↔ s ∈ (lfSpecSet l).map (fun y => y.1) := by
  cases l with
  | nil => simp [lfFlagOf, lfSpecSet]
  | cons x rest =>
    have h1 : lfFlagOf (x :: rest) = lfChainGood x.1 x.2 rest := rfl
    rw [h1, mem_lfChainGood]

theorem lfSpecSet_cons_eq_nil (x : Ident × Nat) (l : List (Ident × Nat)) :
    lfSpecSet (x :: l) = [] ↔ ∀ y ∈ l, y.2 = x.2 := by
  induction l generalizing x with
  | nil => simp [lfSpecSet]
  | cons y rest ih =>
    rw [lfSpecSet_cons_cons]
    by_cases hc : x.2 ≠ y.2
    · rw [if_pos hc]
      simp only [List.cons_ne_nil, false_iff]
      push_neg
      exact ⟨y, List.mem_cons_self y rest, fun h => hc h.symm⟩
    · rw [if_neg hc, ih y]
      push_neg at hc
      constructor
      · intro hall z hz
        rcases List.mem_cons.mp hz with rfl | hzr
        · exact hc.symm
        · exact (hall z hzr).trans hc.symm
      · intro hall z hz
        exact (hall z (List.mem_cons_of_mem y hz)).trans hc

theorem lfSpecSet_eq_nil (l : List (Ident × Nat)) :
    lfSpecSet l = [] ↔ ∀ o1 ∈ l, ∀ o2 ∈ l, o1.2 = o2.2 := by
  cases l with
  | nil => simp [lfSpecSet]
  | cons x rest =>
    rw [lfSpecSet_cons_eq_nil]
    constructor
    · intro hall o1 h1 o2 h2
      have hv : ∀ o ∈ x :: rest, o.2 = x.2 := by
        intro o ho
        rcases List.mem_cons.mp ho with rfl | hr
        · rfl
        · exact hall o hr
      rw [hv o1 h1, hv o2 h2]
    · intro hall y hy
      exact hall y (List.mem_cons_of_mem x hy) x (List.mem_cons_self x rest)

theorem lfSpecSet_suffix (l : List (Ident × Nat)) :
    ∃ s, l = s ++ lfSpecSet l := by
  induction l with
  | nil => exact ⟨[], rfl⟩
  | cons x tail ih =>
    cases tail with
    | nil => exact ⟨[x], rfl⟩
    | cons y rest =>
      rw [lfSpecSet_cons_cons]
      by_cases hc : x.2 ≠ y.2
      · rw [if_pos hc]
        exact ⟨[], rfl⟩
      · rw [if_neg hc]
        obtain ⟨s, hs⟩ := ih
        exact ⟨x :: s, by rw [List.cons_append, ← hs]⟩

theorem lfSpecSet_head (l : List (Ident × Nat)) :
    lfSpecSet l = [] ∨ ∃ u v rest2, lfSpecSet l = u :: v :: rest2 ∧ u.2 ≠ v.2 := by
  induction l with
  | nil => exact Or.inl rfl
  | cons x tail ih =>
    cases tail with
    | nil => exact Or.inl rfl
    | cons y rest =>
      rw [lfSpecSet_cons_cons]
      by_cases hc : x.2 ≠ y.2
      · rw [if_pos hc]
        exact Or.inr ⟨x, y, rest, rfl, hc⟩
      · rw [if_neg hc]
        exact ih

theorem lockFreeList_names_nodup (a : App)
    (hnodup : (a.shared_resources.map (fun p => p.1.name)).Nodup) :
    ((lockFreeList a).map (fun l => l.name)).Nodup := by
  have hsub : (lockFreeList a).Sublist (a.shared_resources.map (fun p => p.1)) := by
    rw [lockFreeList]
    exact List.Sublist.map (fun (p : Ident × SharedResource) => p.1)
      (List.filter_sublist a.shared_resources)
  have hsub2 : ((lockFreeList a).map (fun l => l.name)).Sublist
      ((a.shared_resources.map (fun p => p.1)).map (fun l => l.name)) :=
    hsub.map (fun l => l.name)
  refine hsub2.nodup ?_
  rw [List.map_map]
  exact hnodup

/-- C3: for a resource flagged `lock_free`, the validator produces a
diagnostic if and only if some lock-free resource is accessed at two or more
distinct priorities; the flagged sites of each lock-free resource are exactly
the suffix of its access-site list starting at the first adjacent
conflicting pair (so both sites of that conflicting pair and every subsequent
access site are flagged/cited, each in a diagnostic of its own), and any
lock-free diagnostic makes the whole analysis fail. -/
theorem C3_lock_free_validator (a : App)
    (hnodup : (a.shared_resources.map (fun p => p.1.name)).Nodup) :
    ((lfSummaryDiags a ++ lfSiteDiags a ≠ []) ↔
      ∃ lf ∈ lockFreeList a, ∃ o1 ∈ sharedOccs (task_resources_list a) lf.name,
        ∃ o2 ∈ sharedOccs (task_resources_list a) lf.name, o1.2 ≠ o2.2)
    ∧ (∀ lf ∈ lockFreeList a, ∀ s : Ident,
        (s ∈ lfFlagged a ∧ s.name = lf.name) ↔
          s ∈ (lfSpecSet (sharedOccs (task_resources_list a) lf.name)).map (fun y => y.1))
    ∧ (∀ lf ∈ lockFreeList a, ∃ s,
        sharedOccs (task_resources_list a) lf.name
          = s ++ lfSpecSet (sharedOccs (task_resources_list a) lf.name))
    ∧ (∀ lf ∈ lockFreeList a,
        lfSpecSet (sharedOccs (task_resources_list a) lf.name) = []
        ∨ ∃ u v rest2,
            lfSpecSet (sharedOccs (task_resources_list a) lf.name) = u :: v :: rest2
            ∧ u.2 ≠ v.2)
    ∧ (∀ s ∈ lfFlagged a,
        Diag.mk s.span ("Shared resource " ++ s.name
          ++ " is declared lock free but used by tasks at different priorities")
          ∈ lfSiteDiags a)
    ∧ ((lfSummaryDiags a ++ lfSiteDiags a) ≠ [] → ∀ an, appAnalyze a ≠ .ok an) := by
  have hlfnodup := lockFreeList_names_nodup a hnodup
  have hflag := lfFlagged_eq a hlfnodup
  have hempty : lfFlagged a = [] ↔
      ∀ lf ∈ lockFreeList a, lfSpecSet (sharedOccs (task_resources_list a) lf.name) = [] := by
    rw [hflag, List.flatten_eq_nil_iff]
    constructor
    · intro hall lf hlf
      have h1 : lfFlagOf (sharedOccs (task_resources_list a) lf.name) = [] :=
        hall _ (List.mem_map_of_mem _ hlf)
      by_contra hne
      obtain ⟨u, hu⟩ : ∃ u, u ∈ lfSpecSet (sharedOccs (task_resources_list a) lf.name) := by
        cases hsp : lfSpecSet (sharedOccs (task_resources_list a) lf.name) with
        | nil => exact absurd hsp hne
        | cons u l => exact ⟨u, hsp ▸ List.mem_cons_self u l⟩
      have : u.1 ∈ lfFlagOf (sharedOccs (task_resources_list a) lf.name) :=
        (mem_lfFlagOf u.1 _).mpr (List.mem_map_of_mem (fun y => y.1) hu)
      rw [h1] at this
      exact List.not_mem_nil u.1 this
    · intro hall l hl
      rw [List.mem_map] at hl
      obtain ⟨lf, hlf, rfl⟩ := hl
      rw [List.eq_nil_iff_forall_not_mem]
      intro s hs
      rw [mem_lfFlagOf, hall lf hlf] at hs
      exact List.not_mem_nil s hs
  have hdiags : (lfSummaryDiags a ++ lfSiteDiags a ≠ []) ↔ lfFlagged a ≠ [] := by
    constructor
    · intro h
      intro hfe
      apply h
      rw [List.append_eq_nil]
      constructor
      · rw [lfSummaryDiags, List.map_eq_nil_iff, List.filter_eq_nil_iff]
        intro r _
        rw [hfe]
        simp
      · rw [lfSiteDiags, hfe]
        rfl
    · intro h hfe
      rcases List.append_eq_nil.mp hfe with ⟨-, h2⟩
      rw [lfSiteDiags, List.map_eq_nil_iff] at h2
      exact h h2
  refine ⟨?_, ?_, ?_, ?_, ?_, ?_⟩
  · rw [hdiags]
    constructor
    · intro hne
      by_contra hno
      push_neg at hno
      apply hne
      rw [hempty]
      intro lf hlf
      rw [lfSpecSet_eq_nil]
      intro o1 h1 o2 h2
      exact hno lf hlf o1 h1 o2 h2
    · rintro ⟨lf, hlf, o1, h1, o2, h2, hne⟩ hfe
      rw [hempty] at hfe
      exact hne ((lfSpecSet_eq_nil _).mp (hfe lf hlf) o1 h1 o2 h2)
  · intro lf hlf s
    constructor
    · rintro ⟨hs, hname⟩
      rw [hflag, List.mem_flatten] at hs
      obtain ⟨l, hl, hsl⟩ := hs
      rw [List.mem_map] at hl
      obtain ⟨lf', hlf', rfl⟩ := hl
      have hname' : s.name = lf'.name :=
        lfFlagOf_names lf'.name _ (sharedOccs_names _ _) s hsl
      have heq : lf' = lf := by
        have hinj := List.inj_on_of_nodup_map hlfnodup
        exact hinj hlf' hlf (hname'.symm.trans hname)
      rw [heq] at hsl
      exact (mem_lfFlagOf s _).mp hsl
    · intro hs
      have hmem : s ∈ lfFlagOf (sharedOccs (task_resources_list a) lf.name) :=
        (mem_lfFlagOf s _).mpr hs
      constructor
      · rw [hflag, List.mem_flatten]
        exact ⟨_, List.mem_map_of_mem _ hlf, hmem⟩
      · exact lfFlagOf_names lf.name _ (sharedOccs_names _ _) s hmem
  · intro lf _
    exact lfSpecSet_suffix _
  · intro lf _
    exact lfSpecSet_head _
  · intro s hs
    rw [lfSiteDiags, List.mem_map]
    exact ⟨s, hs, rfl⟩
  · intro h an hok
    obtain ⟨hnil, -⟩ := appAnalyze_ok a an hok
    apply h
    rw [errorList] at hnil
    rcases List.append_eq_nil.mp hnil with ⟨h1, -⟩
    exact h1

/-- Witness for C3 at `appLF`: both access sites of the lock-free resource
`y` (used at priorities 3 and 5) are flagged and the analysis fails. -/
theorem C3_lock_free_validator_witness :
    (⟨"y", 10⟩ : Ident) ∈ lfFlagged appLF
    ∧ (⟨"y", 11⟩ : Ident) ∈ lfFlagged appLF
    ∧ ∀ an, appAnalyze appLF ≠ .ok an := by
  have h := C3_lock_free_validator appLF (by decide)
  have h2 := h.2.1 ⟨"y", 9⟩ (by decide)
  exact ⟨((h2 ⟨"y", 10⟩).mpr (by decide)).1, ((h2 ⟨"y", 11⟩).mpr (by decide)).1,
    h.2.2.2.2.2 (by decide)⟩

/-! ## Channels -/

theorem foldl_pair_fst {α β γ : Type} (f : α → γ → α) (g : β → γ → β)
    (l : List γ) (x : α) (y : β) :
    (l.foldl (fun st p => (f st.1 p, g st.2 p)) (x, y)).1 = l.foldl f x := by
  induction l generalizing x y with
  | nil => rfl
  | cons p rest ih => exact ih (f x p) (g y p)

theorem foldl_pair_snd {α β γ : Type} (f : α → γ → α) (g : β → γ → β)
    (l : List γ) (x : α) (y : β) :
    (l.foldl (fun st p => (f st.1 p, g st.2 p)) (x, y)).2 = l.foldl g y := by
  induction l generalizing x y with
  | nil => rfl
  | cons p rest ih => exact ih (f x p) (g y p)

theorem channelsPass_fst (a : App) (s0 : List String) :
    (channelsPass a s0).1
      = a.software_tasks.foldl
          (fun chs p =>
            btreeUpdate p.2.args.priority
              (fun ch => ⟨ch.capacity, setInsertStr p.1 ch.tasks⟩) chs)
          [] := by
  rw [channelsPass]
  exact foldl_pair_fst
    (fun chs p =>
      btreeUpdate p.2.args.priority
        (fun ch => ⟨ch.capacity, setInsertStr p.1 ch.tasks⟩) chs)
    (fun s p => p.2.inputs.foldl (fun s i => insertSet i s) s)
    a.software_tasks [] s0

theorem channelsPass_snd (a : App) (s0 : List String) :
    (channelsPass a s0).2
      = a.software_tasks.foldl
          (fun s p => p.2.inputs.foldl (fun s i => insertSet i s) s) s0 := by
  rw [channelsPass]
  exact foldl_pair_snd
    (fun chs p =>
      btreeUpdate p.2.args.priority
        (fun ch => ⟨ch.capacity, setInsertStr p.1 ch.tasks⟩) chs)
    (fun s p => p.2.inputs.foldl (fun s i => insertSet i s) s)
    a.software_tasks [] s0

theorem lookupBT_cons (p : Nat × Channel) (l : List (Nat × Channel)) (k : Nat) :
    lookupBT (p :: l) k = if p.1 = k then some p.2 else lookupBT l k := by
  by_cases h : p.1 = k <;> simp [lookupBT, List.find?_cons, h]

theorem lookupBT_eq_none (l : List (Nat × Channel)) (k : Nat)
    (h : ∀ p ∈ l, p.1 ≠ k) : lookupBT l k = none := by
  induction l with
  | nil => rfl
  | cons p rest ih =>
    rw [lookupBT_cons, if_neg (h p (List.mem_cons_self p rest))]
    exact ih (fun q hq => h q (List.mem_cons_of_mem p hq))

theorem btreeUpdate_mem_keys (k : Nat) (f : Channel → Channel)
    (l : List (Nat × Channel)) (q : Nat × Channel) (hq : q ∈ btreeUpdate k f l) :
    q.1 = k ∨ ∃ p ∈ l, q.1 = p.1 := by
  induction l with
  | nil =>
    rw [btreeUpdate] at hq
    rcases List.mem_cons.mp hq with heq | h
    · exact Or.inl (by rw [heq])
    · simp at h
  | cons p rest ih =>
    rw [btreeUpdate] at hq
    by_cases h1 : k < p.1
    · rw [if_pos h1] at hq
      rcases List.mem_cons.mp hq with heq | h2
      · exact Or.inl (by rw [heq])
      · rcases List.mem_cons.mp h2 with heq | h3
        · exact Or.inr ⟨p, List.mem_cons_self p rest, by rw [heq]⟩
        · exact Or.inr ⟨q, List.mem_cons_of_mem p h3, rfl⟩
    · rw [if_neg h1] at hq
      by_cases h2 : k = p.1
      · rw [if_pos h2] at hq
        rcases List.mem_cons.mp hq with heq | h3
        · exact Or.inr ⟨p, List.mem_cons_self p rest, by rw [heq]⟩
        · exact Or.inr ⟨q, List.mem_cons_of_mem p h3, rfl⟩
      · rw [if_neg h2] at hq
        rcases List.mem_cons.mp hq with heq | h3
        · exact Or.inr ⟨p, List.mem_cons_self p rest, by rw [heq]⟩
        · rcases ih h3 with hk | ⟨r, hr, hqr⟩
          · exact Or.inl hk
          · exact Or.inr ⟨r, List.mem_cons_of_mem p hr, hqr⟩

theorem btreeUpdate_sorted (k : Nat) (f : Channel → Channel)
    (l : List (Nat × Channel)) (h : l.Pairwise (fun p q => p.1 < q.1)) :
    (btreeUpdate k f l).Pairwise (fun p q => p.1 < q.1) := by
  induction l with
  | nil => simp [btreeUpdate]
  | cons p rest ih =>
    obtain ⟨hp, hrest⟩ := List.pairwise_cons.mp h
    rw [btreeUpdate]
    by_cases h1 : k < p.1
    · rw [if_pos h1]
      refine List.pairwise_cons.mpr ⟨?_, h⟩
      intro q hq
      rcases List.mem_cons.mp hq with rfl | h2
      · exact h1
      · exact lt_trans h1 (hp q h2)
    · rw [if_neg h1]
      by_cases h2 : k = p.1
      · rw [if_pos h2]
        exact List.pairwise_cons.mpr ⟨hp, hrest⟩
      · rw [if_neg h2]
        refine List.pairwise_cons.mpr ⟨?_, ih hrest⟩
        intro q hq
        rcases btreeUpdate_mem_keys k f rest q hq with hk | ⟨r, hr, hqr⟩
        · rw [hk]
          omega
        · rw [hqr]
          exact hp r hr

theorem lookupBT_btreeUpdate (k : Nat) (f : Channel → Channel)
    (l : List (Nat × Channel)) (k' : Nat)
    (h : l.Pairwise (fun p q => p.1 < q.1)) :
    lookupBT (btreeUpdate k f l) k'
      = if k' = k then some (f ((lookupBT l k).getD Channel.default))
        else lookupBT l k' := by
  induction l with
  | nil =>
    rw [btreeUpdate, lookupBT_cons]
    by_cases hk : k' = k
    · rw [if_pos hk.symm, if_pos hk]
      rfl
    · rw [if_neg (fun hh => hk hh.symm), if_neg hk]
  | cons p rest ih =>
    obtain ⟨hp, hrest⟩ := List.pairwise_cons.mp h
    have hR : lookupBT (p :: rest) k' = if p.1 = k' then some p.2 else lookupBT rest k' :=
      lookupBT_cons p rest k'
    rw [btreeUpdate]
    by_cases h1 : k < p.1
    · rw [if_pos h1]
      have hL : lookupBT ((k, f Channel.default) :: p :: rest) k'
          = if k = k' then some (f Channel.default) else lookupBT (p :: rest) k' :=
        lookupBT_cons _ _ _
      have hnone : lookupBT (p :: rest) k = none := by
        refine lookupBT_eq_none _ _ ?_
        intro q hq
        rcases List.mem_cons.mp hq with rfl | h2
        · omega
        · have := hp q h2
          omega
      rw [hL, hnone]
      by_cases hk : k' = k
      · rw [if_pos hk.symm, if_pos hk]
        rfl
      · rw [if_neg (fun hh => hk hh.symm), if_neg hk]
    · rw [if_neg h1]
      by_cases h2 : k = p.1
      · rw [if_pos h2]
        have hL : lookupBT ((p.1, f p.2) :: rest) k'
            = if p.1 = k' then some (f p.2) else lookupBT rest k' :=
          lookupBT_cons _ _ _
        have hRk : lookupBT (p :: rest) k = some p.2 := by
          rw [lookupBT_cons, if_pos h2.symm]
        rw [hL, hRk, hR]
        by_cases hk : k' = k
        · have h3 : p.1 = k' := by omega
          rw [if_pos h3, if_pos hk]
          rfl
        · have h3 : ¬ p.1 = k' := by omega
          rw [if_neg h3, if_neg hk, if_neg h3]
      · rw [if_neg h2]
        have hL : lookupBT (p :: btreeUpdate k f rest) k'
            = if p.1 = k' then some p.2 else lookupBT (btreeUpdate k f rest) k' :=
          lookupBT_cons _ _ _
        have hRk : lookupBT (p :: rest) k = lookupBT rest k := by
          rw [lookupBT_cons, if_neg (fun hh : p.1 = k => h2 hh.symm)]
        rw [hL, ih hrest, hRk, hR]
        by_cases hk : k' = k
        · have h3 : ¬ p.1 = k' := by omega
          rw [if_neg h3, if_pos hk, if_pos hk]
        · by_cases h3 : p.1 = k'
          · rw [if_pos h3, if_neg hk, if_pos h3]
          · rw [if_neg h3, if_neg hk, if_neg h3, if_neg hk]

theorem chanFold_sorted (l : List (String × SoftwareTask)) (chs0 : List (Nat × Channel))
    (hs : chs0.Pairwise (fun p q => p.1 < q.1)) :
    (l.foldl
        (fun chs p =>
          btreeUpdate p.2.args.priority
            (fun ch => ⟨ch.capacity, setInsertStr p.1 ch.tasks⟩) chs)
        chs0).Pairwise (fun p q => p.1 < q.1) := by
  induction l generalizing chs0 with
  | nil => exact hs
  | cons p rest ih =>
    exact ih _ (btreeUpdate_sorted _ _ _ hs)

theorem chanFold_lookup (l : List (String × SoftwareTask)) (chs0 : List (Nat × Channel))
    (pr : Nat) (hs : chs0.Pairwise (fun p q => p.1 < q.1)) :
    lookupBT
        (l.foldl
          (fun chs p =>
            btreeUpdate p.2.args.priority
              (fun ch => ⟨ch.capacity, setInsertStr p.1 ch.tasks⟩) chs)
          chs0) pr
      = ((l.filter (fun p => p.2.args.priority = pr)).map (fun p => p.1)).foldl
          chanStepOpt (lookupBT chs0 pr) := by
  induction l generalizing chs0 with
  | nil => rfl
  | cons p rest ih =>
    rw [List.foldl_cons, ih _ (btreeUpdate_sorted _ _ _ hs),
      lookupBT_btreeUpdate _ _ _ _ hs]
    by_cases hpr : p.2.args.priority = pr
    · rw [if_pos hpr.symm, List.filter_cons_of_pos (by simp [hpr]), List.map_cons,
        List.foldl_cons, hpr]
      rfl
    · rw [if_neg (fun hh => hpr hh.symm), List.filter_cons_of_neg (by simp [hpr])]

theorem chanOptFold_some (names : List String) (cap : Nat) (ts : List String) :
    names.foldl chanStepOpt (some ⟨cap, ts⟩)
      = some ⟨cap, names.foldl (fun s nm => setInsertStr nm s) ts⟩ := by
  induction names generalizing ts with
  | nil => rfl
  | cons nm rest ih => exact ih (setInsertStr nm ts)

theorem chanOptFold_none (names : List String) :
    names.foldl chanStepOpt none
      = if names = [] then none else some ⟨0, tasksSetOf names⟩ := by
  cases names with
  | nil => rfl
  | cons nm rest =>
    rw [List.foldl_cons, if_neg (List.cons_ne_nil nm rest)]
    have h1 : chanStepOpt none nm = some ⟨0, setInsertStr nm []⟩ := rfl
    rw [h1, chanOptFold_some]
    rfl

theorem foldl_setInsertStr_perm (names : List String) (s : List String)
    (hnd : names.Nodup) (hdisj : ∀ n ∈ names, n ∉ s) :
    List.Perm (names.foldl (fun s nm => setInsertStr nm s) s) (names ++ s) := by
  induction names generalizing s with
  | nil => simp
  | cons nm rest ih =>
    have h1 : List.Perm (setInsertStr nm s) (nm :: s) :=
      setInsertStr_perm nm s (hdisj nm (List.mem_cons_self nm rest))
    have hnd' : rest.Nodup := (List.nodup_cons.mp hnd).2
    have hdisj' : ∀ n ∈ rest, n ∉ setInsertStr nm s := by
      intro n hn hmem
      rcases (mem_setInsertStr n nm s).mp hmem with rfl | hmem2
      · exact (List.nodup_cons.mp hnd).1 hn
      · exact hdisj n (List.mem_cons_of_mem nm hn) hmem2
    have step1 : List.Perm (rest.foldl (fun s nm => setInsertStr nm s) (setInsertStr nm s))
        (rest ++ setInsertStr nm s) := ih (setInsertStr nm s) hnd' hdisj'
    have step2 : List.Perm (rest ++ setInsertStr nm s) (rest ++ (nm :: s)) :=
      List.Perm.append_left rest h1
    have step3 : List.Perm (rest ++ (nm :: s)) (nm :: (rest ++ s)) :=
      List.perm_middle
    exact ((step1.trans step2).trans step3)

theorem find?_software_of_mem (l : List (String × SoftwareTask)) (nm : String)
    (t : SoftwareTask) (hmem : (nm, t) ∈ l) (hnd : (l.map (fun p => p.1)).Nodup) :
    l.find? (fun p => p.1 = nm) = some (nm, t) := by
  induction l with
  | nil => simp at hmem
  | cons p rest ih =>
    have hnd' : (rest.map (fun p => p.1)).Nodup := (List.nodup_cons.mp hnd).2
    by_cases hp : p.1 = nm
    · rcases List.mem_cons.mp hmem with heq | h2
      · rw [List.find?_cons_of_pos _ (by simp [hp]), ← heq]
      · exfalso
        have hin : p.1 ∈ rest.map (fun p => p.1) := by
          rw [hp]
          exact List.mem_map_of_mem (fun p => p.1) h2
        exact (List.nodup_cons.mp hnd).1 hin
    · have h2 : (nm, t) ∈ rest := by
        rcases List.mem_cons.mp hmem with heq | h2
        · exfalso
          apply hp
          rw [← heq]
        · exact h2
      rw [List.find?_cons_of_neg _ (by simp [hp])]
      exact ih h2 hnd'

theorem lookupBT_computeCapacities (a : App) (chs : List (Nat × Channel)) (pr : Nat) :
    lookupBT (computeCapacities a chs) pr
      = (lookupBT chs pr).map
          (fun ch => ⟨(ch.tasks.map (swCapacity a)).sum % 256, ch.tasks⟩) := by
  induction chs with
  | nil => rfl
  | cons p rest ih =>
    have h1 : computeCapacities a (p :: rest)
        = (p.1, ⟨(p.2.tasks.map (swCapacity a)).sum % 256, p.2.tasks⟩)
          :: computeCapacities a rest :=
      rfl
    rw [h1, lookupBT_cons, lookupBT_cons]
    by_cases hp : p.1 = pr
    · rw [if_pos hp, if_pos hp]
      rfl
    · rw [if_neg hp, if_neg hp, ih]

theorem computeCapacities_keys (a : App) (chs : List (Nat × Channel)) :
    (computeCapacities a chs).map (fun p => p.1) = chs.map (fun p => p.1) := by
  rw [computeCapacities, List.map_map]
  rfl

/-- C6 (amended): in a successful analysis there is exactly one channel per
dispatch priority with at least one spawnable task (the channel keys are
unique, a priority has a channel exactly when some software task is declared
at it); each channel's task set is non-empty and consists exactly of the
names of the software tasks at that priority; and its capacity is the sum of
those tasks' declared queue capacities reduced modulo `2^8` (the source sums
into a `u8` field), hence equal to the plain sum whenever that sum fits in a
`u8` — e.g. capacities 4 and 6 at one priority give one channel of capacity
10. -/
theorem C6_channels (a : App) (an : Analysis)
    (hok : appAnalyze a = .ok an)
    (hnodup : (a.software_tasks.map (fun p => p.1)).Nodup) :
    (an.channels.map (fun p => p.1)).Nodup
    ∧ ∀ pr : Nat,
      (((lookupBT an.channels pr).isSome = true) ↔
        ∃ p ∈ a.software_tasks, p.2.args.priority = pr)
      ∧ ∀ ch, lookupBT an.channels pr = some ch →
          ch.tasks ≠ []
          ∧ ch.tasks.Nodup
          ∧ (∀ nm, nm ∈ ch.tasks ↔
              ∃ t, (nm, t) ∈ a.software_tasks ∧ t.args.priority = pr)
          ∧ ch.capacity
              = ((a.software_tasks.filter (fun p => p.2.args.priority = pr)).map
                  (fun p => p.2.args.capacity)).sum % 256
          ∧ (((a.software_tasks.filter (fun p => p.2.args.priority = pr)).map
                  (fun p => p.2.args.capacity)).sum ≤ 255 →
              ch.capacity
                = ((a.software_tasks.filter (fun p => p.2.args.priority = pr)).map
                    (fun p => p.2.args.capacity)).sum) := by
  obtain ⟨-, rfl⟩ := appAnalyze_ok a an hok
  have hchan : (analysisOf a).channels
      = computeCapacities a
          (a.software_tasks.foldl
            (fun chs p =>
              btreeUpdate p.2.args.priority
                (fun ch => ⟨ch.capacity, setInsertStr p.1 ch.tasks⟩) chs)
            []) := by
    show computeCapacities a (channelsPass a _).1 = _
    rw [channelsPass_fst]
  set chs := a.software_tasks.foldl
    (fun chs p =>
      btreeUpdate p.2.args.priority
        (fun ch => ⟨ch.capacity, setInsertStr p.1 ch.tasks⟩) chs) [] with hchs
  have hsorted : chs.Pairwise (fun p q => p.1 < q.1) :=
    chanFold_sorted a.software_tasks [] List.Pairwise.nil
  constructor
  · rw [hchan, computeCapacities_keys]
    have hpw : (chs.map (fun p => p.1)).Pairwise (fun x y => x < y) :=
      List.pairwise_map.mpr hsorted
    exact hpw.imp (fun h => Nat.ne_of_lt h)
  · intro pr
    have hlook : lookupBT chs pr
        = if ((a.software_tasks.filter (fun p => p.2.args.priority = pr)).map
              (fun p => p.1)) = [] then none
          else some ⟨0, tasksSetOf
            ((a.software_tasks.filter (fun p => p.2.args.priority = pr)).map
              (fun p => p.1))⟩ := by
      rw [hchs, chanFold_lookup a.software_tasks [] pr List.Pairwise.nil]
      exact chanOptFold_none _
    set names := (a.software_tasks.filter (fun p => p.2.args.priority = pr)).map
      (fun p => p.1) with hnames
    have hnamesnd : names.Nodup := by
      refine List.Nodup.sublist ?_ hnodup
      exact List.Sublist.map (fun p => p.1)
        (List.filter_sublist a.software_tasks)
    have hmemnames : ∀ nm, nm ∈ names ↔
        ∃ t, (nm, t) ∈ a.software_tasks ∧ t.args.priority = pr := by
      intro nm
      rw [hnames, List.mem_map]
      constructor
      · rintro ⟨p, hp, rfl⟩
        have h1 := List.mem_of_mem_filter hp
        have h2 := List.of_mem_filter hp
        simp only [decide_eq_true_eq] at h2
        exact ⟨p.2, by simpa using h1, h2⟩
      · rintro ⟨t, ht, hpr⟩
        exact ⟨(nm, t), List.mem_filter.mpr ⟨ht, by simpa using hpr⟩, rfl⟩
    have hnames_ne : ¬ names = [] ↔ ∃ p ∈ a.software_tasks, p.2.args.priority = pr := by
      rw [hnames, List.map_eq_nil_iff, List.filter_eq_nil_iff]
      constructor
      · intro h
        by_contra hno
        push_neg at hno
        apply h
        intro p hp
        simp [hno p hp]
      · rintro ⟨p, hp, hpr⟩ hall
        have := hall p hp
        simp [hpr] at this
    have hperm : List.Perm (tasksSetOf names) names := by
      have := foldl_setInsertStr_perm names [] hnamesnd (by simp)
      rw [List.append_nil] at this
      exact this
    have hcap : lookupBT (analysisOf a).channels pr
        = (lookupBT chs pr).map
            (fun ch => ⟨(ch.tasks.map (swCapacity a)).sum % 256, ch.tasks⟩) := by
      rw [hchan]
      exact lookupBT_computeCapacities a chs pr
    constructor
    · rw [hcap, hlook]
      by_cases hne : names = []
      · rw [if_pos hne]
        simp only [Option.map_none', Option.isSome_none, Bool.false_eq_true, false_iff]
        rw [← hnames_ne]
        intro h
        exact h hne
      · rw [if_neg hne]
        simp only [Option.map_some', Option.isSome_some, true_iff]
        exact hnames_ne.mp hne
    · intro ch hch
      rw [hcap, hlook] at hch
      by_cases hne : names = []
      · rw [if_pos hne] at hch
        cases hch
      · rw [if_neg hne] at hch
        simp only [Option.map_some', Option.some_inj] at hch
        have htasks : ch.tasks = tasksSetOf names := by rw [← hch]
        have hcapeq : ch.capacity = ((tasksSetOf names).map (swCapacity a)).sum % 256 := by
          rw [← hch]
        refine ⟨?_, ?_, ?_, ?_⟩
        · rw [htasks]
          intro hnil
          apply hne
          have hlen := hperm.length_eq
          rw [hnil] at hlen
          exact List.eq_nil_of_length_eq_zero hlen.symm
        · rw [htasks]
          exact (hperm.nodup_iff).mpr hnamesnd
        · intro nm
          rw [htasks, hperm.mem_iff]
          exact hmemnames nm
        · have hS : ((tasksSetOf names).map (swCapacity a)).sum
              = ((a.software_tasks.filter (fun p => p.2.args.priority = pr)).map
                  (fun p => p.2.args.capacity)).sum := by
            have hsum : ((tasksSetOf names).map (swCapacity a)).sum
                = (names.map (swCapacity a)).sum :=
              (hperm.map (swCapacity a)).sum_eq
            rw [hsum, hnames, List.map_map]
            congr 1
            refine List.map_congr_left ?_
            intro p hp
            have h1 := List.mem_of_mem_filter hp
            have hfind : a.software_tasks.find? (fun q => q.1 = p.1) = some (p.1, p.2) :=
              find?_software_of_mem a.software_tasks p.1 p.2 (by simpa using h1) hnodup
            show swCapacity a p.1 = p.2.args.capacity
            rw [swCapacity, hfind]
            rfl
          constructor
          · rw [hcapeq, hS]
          · intro hle
            rw [hcapeq, hS, Nat.mod_eq_of_lt (by omega)]

/-- Witness for C6 at `appOK`: dispatch priority 2 has exactly one channel;
its tasks are the two software tasks declared at priority 2, and since their
capacity sum 4 + 6 = 10 fits in a `u8`, the channel's capacity is exactly
that sum. -/
theorem C6_channels_witness :
    (lookupBT (analysisOf appOK).channels 2).isSome = true
    ∧ (⟨10, ["t1", "t2"]⟩ : Channel).tasks ≠ []
    ∧ ((appOK.software_tasks.filter (fun p => p.2.args.priority = 2)).map
        (fun p => p.2.args.capacity)).sum ≤ 255
    ∧ (⟨10, ["t1", "t2"]⟩ : Channel).capacity
        = ((appOK.software_tasks.filter (fun p => p.2.args.priority = 2)).map
            (fun p => p.2.args.capacity)).sum := by
  have h := C6_channels appOK (analysisOf appOK) (by rfl) (by decide)
  have h2 := (h.2 2).2 ⟨10, ["t1", "t2"]⟩ (by decide)
  exact ⟨(h.2 2).1.mpr (by decide), h2.1, by decide, h2.2.2.2.2 (by decide)⟩

/-- Counterexample to C6 as originally stated ("capacity equals the sum of
the tasks' declared capacities"): in `appWrap` the two software tasks at
dispatch priority 2 declare capacities 200 and 100; the analysis succeeds and
the channel at key 2 has capacity 300 mod 2^8 = 44, which is not the sum
300. -/
theorem C6_channels_counterexample :
    appAnalyze appWrap = .ok (analysisOf appWrap)
    ∧ lookupBT (analysisOf appWrap).channels 2 = some ⟨44, ["u1", "u2"]⟩
    ∧ ((appWrap.software_tasks.filter (fun p => p.2.args.priority = 2)).map
        (fun p => p.2.args.capacity)).sum = 300
    ∧ ¬ ((⟨44, ["u1", "u2"]⟩ : Channel).capacity
        = ((appWrap.software_tasks.filter (fun p => p.2.args.priority = 2)).map
            (fun p => p.2.args.capacity)).sum) :=
  ⟨rfl, by decide, by decide, by decide⟩

/-! ## Send types -/

theorem mem_foldl_insertIf {β : Type} (P : β → Prop) [DecidablePred P]
    (f : β → String) (l : List β) (s0 : List String) (ty : String) :
    ty ∈ l.foldl (fun s p => if P p then insertSet (f p) s else s) s0
      ↔ ty ∈ s0 ∨ ∃ p ∈ l, P p ∧ f p = ty := by
  induction l generalizing s0 with
  | nil => simp
  | cons p rest ih =>
    rw [List.foldl_cons, ih]
    by_cases hc : P p
    · rw [if_pos hc]
      constructor
      · rintro (h1 | ⟨q, hq, hcq, hfq⟩)
        · rcases (mem_insertSet ty (f p) s0).mp h1 with hs | rfl
          · exact Or.inl hs
          · exact Or.inr ⟨p, List.mem_cons_self p rest, hc, rfl⟩
        · exact Or.inr ⟨q, List.mem_cons_of_mem p hq, hcq, hfq⟩
      · rintro (h1 | ⟨q, hq, hcq, hfq⟩)
        · exact Or.inl ((mem_insertSet ty (f p) s0).mpr (Or.inl h1))
        · rcases List.mem_cons.mp hq with rfl | hq2
          · exact Or.inl ((mem_insertSet ty (f q) s0).mpr (Or.inr hfq.symm))
          · exact Or.inr ⟨q, hq2, hcq, hfq⟩
    · rw [if_neg hc]
      constructor
      · rintro (h1 | ⟨q, hq, hcq, hfq⟩)
        · exact Or.inl h1
        · exact Or.inr ⟨q, List.mem_cons_of_mem p hq, hcq, hfq⟩
      · rintro (h1 | ⟨q, hq, hcq, hfq⟩)
        · exact Or.inl h1
        · rcases List.mem_cons.mp hq with rfl | hq2
          · exact absurd hcq hc
          · exact Or.inr ⟨q, hq2, hcq, hfq⟩

theorem mem_foldl_insertAll {β : Type} (f : β → String) (l : List β)
    (s0 : List String) (ty : String) :
    ty ∈ l.foldl (fun s p => insertSet (f p) s) s0
      ↔ ty ∈ s0 ∨ ∃ p ∈ l, f p = ty := by
  induction l generalizing s0 with
  | nil => simp
  | cons p rest ih =>
    rw [List.foldl_cons, ih]
    constructor
    · rintro (h1 | ⟨q, hq, hfq⟩)
      · rcases (mem_insertSet ty (f p) s0).mp h1 with hs | rfl
        · exact Or.inl hs
        · exact Or.inr ⟨p, List.mem_cons_self p rest, rfl⟩
      · exact Or.inr ⟨q, List.mem_cons_of_mem p hq, hfq⟩
    · rintro (h1 | ⟨q, hq, hfq⟩)
      · exact Or.inl ((mem_insertSet ty (f p) s0).mpr (Or.inl h1))
      · rcases List.mem_cons.mp hq with rfl | hq2
        · exact Or.inl ((mem_insertSet ty (f q) s0).mpr (Or.inr hfq.symm))
        · exact Or.inr ⟨q, hq2, hfq⟩

theorem mem_sendShared (a : App) (owns : List (Ident × Ownership))
    (s0 : List String) (ty : String) :
    ty ∈ sendShared a owns s0
      ↔ ty ∈ s0 ∨ ∃ p ∈ a.shared_resources,
          (∃ o, getIM owns p.1.name = some o ∧ o ≠ Ownership.Owned 0) ∧ p.2.ty = ty := by
  rw [sendShared]
  have h := mem_foldl_insertIf
    (fun (p : Ident × SharedResource) =>
      ((getIM owns p.1.name).map (fun o => decide (o ≠ Ownership.Owned 0))).getD false = true)
    (fun p => p.2.ty) a.shared_resources s0 ty
  rw [h]
  constructor
  · rintro (h1 | ⟨p, hp, hc, hf⟩)
    · exact Or.inl h1
    · refine Or.inr ⟨p, hp, ?_, hf⟩
      cases hg : getIM owns p.1.name with
      | none => rw [hg] at hc; simp at hc
      | some o =>
        rw [hg] at hc
        simp only [Option.map_some', Option.getD_some, decide_eq_true_eq] at hc
        exact ⟨o, rfl, hc⟩
  · rintro (h1 | ⟨p, hp, ⟨o, hg, ho⟩, hf⟩)
    · exact Or.inl h1
    · refine Or.inr ⟨p, hp, ?_, hf⟩
      rw [hg]
      simp [ho]

theorem mem_sendLocal (a : App) (s0 : List String) (ty : String) :
    ty ∈ sendLocal a s0
      ↔ ty ∈ s0 ∨ ∃ p ∈ a.local_resources, p.2.ty = ty ∧
          ¬ ∃ idle, a.idle = some idle
            ∧ idle.args.local_resources.any (fun l => l.name = p.1.name) = true := by
  rw [sendLocal]
  cases hid : a.idle with
  | none =>
    have h := mem_foldl_insertAll (fun (p : Ident × LocalResource) => p.2.ty)
      a.local_resources s0 ty
    rw [h]
    constructor
    · rintro (h1 | ⟨p, hp, hf⟩)
      · exact Or.inl h1
      · refine Or.inr ⟨p, hp, hf, ?_⟩
        rintro ⟨idle, hidle, -⟩
        cases hidle
    · rintro (h1 | ⟨p, hp, hf, -⟩)
      · exact Or.inl h1
      · exact Or.inr ⟨p, hp, hf⟩
  | some idle =>
    have h := mem_foldl_insertIf
      (fun (p : Ident × LocalResource) =>
        ¬ idle.args.local_resources.any (fun l => l.name = p.1.name) = true)
      (fun p => p.2.ty) a.local_resources s0 ty
    rw [h]
    constructor
    · rintro (h1 | ⟨p, hp, hc, hf⟩)
      · exact Or.inl h1
      · refine Or.inr ⟨p, hp, hf, ?_⟩
        rintro ⟨idle', hidle', hany⟩
        injection hidle' with hidle'
        exact hc (hidle' ▸ hany)
    · rintro (h1 | ⟨p, hp, hf, hnot⟩)
      · exact Or.inl h1
      · refine Or.inr ⟨p, hp, ?_, hf⟩
        intro hany
        exact hnot ⟨idle, rfl, hany⟩

theorem mem_sendInputs (l : List (String × SoftwareTask)) (s0 : List String)
    (ty : String) :
    ty ∈ l.foldl (fun s p => p.2.inputs.foldl (fun s i => insertSet i s) s) s0
      ↔ ty ∈ s0 ∨ ∃ p ∈ l, ty ∈ p.2.inputs := by
  induction l generalizing s0 with
  | nil => simp
  | cons p rest ih =>
    rw [List.foldl_cons, ih]
    have hin : ty ∈ p.2.inputs.foldl (fun s i => insertSet i s) s0
        ↔ ty ∈ s0 ∨ ∃ i ∈ p.2.inputs, i = ty :=
      mem_foldl_insertAll (fun i => i) p.2.inputs s0 ty
    constructor
    · rintro (h1 | ⟨q, hq, hfq⟩)
      · rcases hin.mp h1 with hs | ⟨i, hi, rfl⟩
        · exact Or.inl hs
        · exact Or.inr ⟨p, List.mem_cons_self p rest, hi⟩
      · exact Or.inr ⟨q, List.mem_cons_of_mem p hq, hfq⟩
    · rintro (h1 | ⟨q, hq, hfq⟩)
      · exact Or.inl (hin.mpr (Or.inl h1))
      · rcases List.mem_cons.mp hq with rfl | hq2
        · exact Or.inl (hin.mpr (Or.inr ⟨ty, hfq, rfl⟩))
        · exact Or.inr ⟨q, hq2, hfq⟩

/-- C7: in a successful analysis the transfer-safety (`Send`) set contains
exactly: the type of every shared resource with a recorded ownership other
than `Owned{0}`, the type of every declared local resource except those in
the idle task's local-resource list, and every message input type of a
software task — no other rule populates the set. Moreover, under the same
success assumption, a declared local resource is in the idle task's list
precisely when it is referenced at least once and exclusively from the idle
task. -/
theorem C7_send_types (a : App) (an : Analysis)
    (hok : appAnalyze a = .ok an)
    (hnodupl : (a.local_resources.map (fun p => p.1.name)).Nodup) :
    (∀ ty : String,
      ty ∈ an.send_types ↔
        (∃ p ∈ a.shared_resources,
          (∃ o, getIM an.ownerships p.1.name = some o ∧ o ≠ Ownership.Owned 0)
          ∧ p.2.ty = ty)
        ∨ (∃ p ∈ a.local_resources, p.2.ty = ty ∧
            ¬ ∃ idle, a.idle = some idle
              ∧ idle.args.local_resources.any (fun l => l.name = p.1.name) = true)
        ∨ (∃ p ∈ a.software_tasks, ty ∈ p.2.inputs))
    ∧ (∀ p ∈ a.local_resources,
        (∃ idle, a.idle = some idle
            ∧ idle.args.local_resources.any (fun l => l.name = p.1.name) = true)
        ↔ (∃ idle, a.idle = some idle
            ∧ localOccs (task_resources_list a) p.1.name ≠ []
            ∧ ∀ s ∈ localOccs (task_resources_list a) p.1.name,
                s ∈ idle.args.local_resources)) := by
  obtain ⟨hnil, rfl⟩ := appAnalyze_ok a an hok
  have hlrnil : lrDiags a = [] := by
    rw [errorList] at hnil
    exact (List.append_eq_nil.mp hnil).2
  constructor
  · intro ty
    have hsend : (analysisOf a).send_types
        = a.software_tasks.foldl
            (fun s p => p.2.inputs.foldl (fun s i => insertSet i s) s)
            (sendLocal a (sendShared a (sharedPass a).ownerships [])) := by
      show (channelsPass a _).2 = _
      rw [channelsPass_snd]
    rw [hsend, mem_sendInputs, mem_sendLocal, mem_sendShared, analysisOf_ownerships]
    simp only [List.not_mem_nil, false_or]
    rw [or_assoc]
  · intro p hp
    have hle : (localOccs (task_resources_list a) p.1.name).length ≤ 1 :=
      (lrDiags_eq_nil_iff a hnodupl).mp hlrnil p hp
    constructor
    · rintro ⟨idle, hidle, hany⟩
      rw [List.any_eq_true] at hany
      obtain ⟨l, hl, hln⟩ := hany
      simp only [decide_eq_true_eq] at hln
      have htrl : task_resources_list a
          = TaskDesc.mk "idle" (idle.args.shared_resources.map (fun v => v.1))
              idle.args.local_resources 0
            :: (a.software_tasks.map (fun q =>
                  TaskDesc.mk q.1 (q.2.args.shared_resources.map (fun v => v.1))
                    q.2.args.local_resources q.2.args.priority)
                ++ a.hardware_tasks.map (fun q =>
                  TaskDesc.mk q.1 (q.2.args.shared_resources.map (fun v => v.1))
                    q.2.args.local_resources q.2.args.priority)) := by
        rw [task_resources_list, hidle]
        rfl
      have hocc : l ∈ localOccs (task_resources_list a) p.1.name := by
        rw [localOccs]
        refine List.mem_map.mpr ⟨("idle", l), ?_, rfl⟩
        rw [localOccsT, List.mem_filter]
        refine ⟨?_, by simp [hln.symm]⟩
        rw [allLocalPairs, htrl]
        rw [List.map_cons, List.flatten_cons]
        refine List.mem_append_left _ ?_
        exact List.mem_map_of_mem (fun r => ("idle", r)) hl
      have hocceq : localOccs (task_resources_list a) p.1.name = [l] := by
        cases hoc : localOccs (task_resources_list a) p.1.name with
        | nil =>
          rw [hoc] at hocc
          exact absurd hocc (List.not_mem_nil l)
        | cons x rest2 =>
          rw [hoc] at hle hocc
          have hr2 : rest2 = [] := by
            cases rest2 with
            | nil => rfl
            | cons y r3 => simp at hle
          subst hr2
          rcases List.mem_singleton.mp hocc with rfl
          rfl
      refine ⟨idle, hidle, by rw [hocceq]; simp, ?_⟩
      rw [hocceq]
      intro s hs
      rw [List.mem_singleton.mp hs]
      exact hl
    · rintro ⟨idle, hidle, hne, hall⟩
      obtain ⟨s, hs⟩ : ∃ s, s ∈ localOccs (task_resources_list a) p.1.name := by
        cases hoc : localOccs (task_resources_list a) p.1.name with
        | nil => exact absurd hoc hne
        | cons x r => exact ⟨x, hoc ▸ List.mem_cons_self x r⟩
      have hsl : s ∈ idle.args.local_resources := hall s hs
      have hsn : s.name = p.1.name := by
        rw [localOccs, List.mem_map] at hs
        obtain ⟨q, hq, rfl⟩ := hs
        exact localOccsT_names (task_resources_list a) p.1.name q hq
      exact ⟨idle, hidle, List.any_eq_true.mpr ⟨s, hsl, by simp [hsn]⟩⟩

/-- Witness for C7 at `appOK`: the contended shared type `X`, the non-idle
local type `LT` and the message type `M1` are all in the `Send` set. -/
theorem C7_send_types_witness :
    ("LT" ∈ (analysisOf appOK).send_types)
    ∧ ("M1" ∈ (analysisOf appOK).send_types)
    ∧ ("X" ∈ (analysisOf appOK).send_types) := by
  have h := (C7_send_types appOK (analysisOf appOK) (by rfl) (by decide)).1
  exact ⟨(h "LT").mpr (by decide), (h "M1").mpr (by decide), (h "X").mpr (by decide)⟩

end RticAnalysis
